import Mathlib

/-!
# godot-unpacker-go: a shallow embedding of `main.go`

The program opens a Godot `.pck` archive, parses its header and directory
table, extracts every entry below `export/`, checks each entry's MD5 digest
and splits `.ctex` payloads (GST2 containers) into one file per mipmap.

Modelling conventions

* A byte is a `Fin 256`; Go strings and byte slices are `List Byte`.
* Go's `uint32`/`uint64` values are `Nat` with explicit `% 2 ^ 32`/`% 2 ^ 64`
  where the source can wrap; `int` is the 64-bit `int` of the Go toolchain.
* The archive is the content of a regular file together with a cursor.
  One call of `os.File.Read` copies at most `maxRW` = 2^30 bytes (the cap of
  Go's `internal/poll`), so `min (len buf) (remaining) maxRW` of them; it
  returns `io.EOF` only when the buffer is non-empty and nothing remains, and
  `0, nil` for an empty buffer.  `Seek` rejects only a negative target.
* A `panic` ends the run; what was written before it stays written.
* Of the text printed on stdout only the MD5-mismatch warning is recorded.
* `os.MkdirAll` and `os.WriteFile` are recorded in call order and are taken
  to succeed.  `make([]byte, n)` panics for `n` above `maxAlloc` = 2^48, the
  limit of the 64-bit Go runtime; running out of memory below that limit is
  not modelled.
-/

namespace GodotUnpacker

/-- One octet. -/
abbrev Byte := Fin 256

/-- The bytes of an ASCII literal, as Go stores a string constant. -/
def ascii (s : String) : List Byte :=
  s.toList.map (fun c => Fin.ofNat c.toNat)

/-- Ways in which a run of the program panics. -/
inductive Err where
  /-- A `panic(err)` with `io.EOF` returned by `file.Read`. -/
  | eof
  /-- A `panic(err)` with the error of a `Seek` to a negative offset. -/
  | seekInvalid
  /-- The `panic("Invalid file header")`. -/
  | invalidHeader
  /-- The `panic("Unsupported PCK file version")`. -/
  | unsupportedVersion
  /-- The `panic("Unsupported flags")`. -/
  | unsupportedFlags
  /-- The `panic("Unsupported file flags")`. -/
  | unsupportedFileFlags
  /-- The `panic("Unsupported GST2 version")`. -/
  | unsupportedGST2Version
  /-- Go runtime panic: index or slice bounds out of range. -/
  | outOfRange
  /-- Go runtime panic: `makeslice: len out of range`. -/
  | makeslice
  deriving DecidableEq, Repr

deriving instance DecidableEq for Except

/-- The constant `MAGIC`. -/
def MAGIC : List Byte := ascii "GDPC"

/-- The constant `PackDirEncrypted` (`1 << iota`, iota = 0). -/
def PackDirEncrypted : Nat := 1

/-- The constant `PackRelFilebase` (`1 << iota`, iota = 1). -/
def PackRelFilebase : Nat := 2

/-- The constant `PackFileEncrypted` (`1 << iota`, iota = 0). -/
def PackFileEncrypted : Nat := 1

/-- The struct `File`: one directory record as kept by `main`. -/
structure File where
  path : List Byte
  ofs : Nat
  size : Nat
  md5 : List Byte
  encrypted : Bool
  deriving DecidableEq, Repr

/-! ## Binary primitives -/

/-- The function `bytesToUint32`: `none` is the index-out-of-range panic of a
slice shorter than 4. -/
def bytesToUint32 (bytes : List Byte) : Option Nat :=
  match bytes with
  | b0 :: b1 :: b2 :: b3 :: _ =>
    some (b0.val ||| (b1.val <<< 8) % 2 ^ 32 ||| (b2.val <<< 16) % 2 ^ 32
      ||| (b3.val <<< 24) % 2 ^ 32)
  | _ => none

/-- The expression of `readUint64` that assembles eight bytes. -/
def bytesToUint64 (bytes : List Byte) : Option Nat :=
  match bytes with
  | b0 :: b1 :: b2 :: b3 :: b4 :: b5 :: b6 :: b7 :: _ =>
    some (b0.val ||| (b1.val <<< 8) % 2 ^ 64 ||| (b2.val <<< 16) % 2 ^ 64
      ||| (b3.val <<< 24) % 2 ^ 64 ||| (b4.val <<< 32) % 2 ^ 64
      ||| (b5.val <<< 40) % 2 ^ 64 ||| (b6.val <<< 48) % 2 ^ 64
      ||| (b7.val <<< 56) % 2 ^ 64)
  | _ => none

/-- The most bytes one `Read` call on an `os.File` transfers: the constant
`maxRW = 1 << 30` of Go's `internal/poll`, to which the buffer is cut before
the `read` system call. -/
def maxRW : Nat := 2 ^ 30

/-- The largest length `make([]byte, n)` accepts on a 64-bit Go runtime
(`maxAlloc`, 48 address bits); above it `makeslice` panics. -/
def maxAlloc : Nat := 2 ^ 48

/-- The call `file.Read(buf)` on a regular file with content `content` and
cursor `pos`, for a freshly made buffer of length `n`: the buffer after the
call and the new cursor.  One call delivers at most `maxRW` bytes and at most
what remains in the file; the rest of the buffer stays zero.  The byte count
Go returns is dropped, as every caller in `main.go` drops it. -/
def fileRead (content : List Byte) (pos n : Nat) : Except Err (List Byte × Nat) :=
  if n = 0 then .ok ([], pos)
  else if content.length ≤ pos then .error .eof
  else
    let got := (content.drop pos).take (min n maxRW)
    .ok (got ++ List.replicate (n - got.length) 0, pos + got.length)

/-- The function `readUint32`. -/
def readUint32 (content : List Byte) (pos : Nat) : Except Err (Nat × Nat) :=
  match fileRead content pos 4 with
  | .error e => .error e
  | .ok (byteArr, pos1) =>
    match bytesToUint32 byteArr with
    | none => .error .outOfRange
    | some v => .ok (v, pos1)

/-- The function `readUint64`. -/
def readUint64 (content : List Byte) (pos : Nat) : Except Err (Nat × Nat) :=
  match fileRead content pos 8 with
  | .error e => .error e
  | .ok (byteArr, pos1) =>
    match bytesToUint64 byteArr with
    | none => .error .outOfRange
    | some v => .ok (v, pos1)

/-! ## MD5 (`crypto/md5`, RFC 1321) -/

/-- Per-round left-rotation amounts. -/
def md5Shifts : List Nat :=
  [7, 12, 17, 22, 7, 12, 17, 22, 7, 12, 17, 22, 7, 12, 17, 22,
   5, 9, 14, 20, 5, 9, 14, 20, 5, 9, 14, 20, 5, 9, 14, 20,
   4, 11, 16, 23, 4, 11, 16, 23, 4, 11, 16, 23, 4, 11, 16, 23,
   6, 10, 15, 21, 6, 10, 15, 21, 6, 10, 15, 21, 6, 10, 15, 21]

/-- The sine-derived round constants. -/
def md5Consts : List Nat :=
  [0xd76aa478, 0xe8c7b756, 0x242070db, 0xc1bdceee,
   0xf57c0faf, 0x4787c62a, 0xa8304613, 0xfd469501,
   0x698098d8, 0x8b44f7af, 0xffff5bb1, 0x895cd7be,
   0x6b901122, 0xfd987193, 0xa679438e, 0x49b40821,
   0xf61e2562, 0xc040b340, 0x265e5a51, 0xe9b6c7aa,
   0xd62f105d, 0x02441453, 0xd8a1e681, 0xe7d3fbc8,
   0x21e1cde6, 0xc33707d6, 0xf4d50d87, 0x455a14ed,
   0xa9e3e905, 0xfcefa3f8, 0x676f02d9, 0x8d2a4c8a,
   0xfffa3942, 0x8771f681, 0x6d9d6122, 0xfde5380c,
   0xa4beea44, 0x4bdecfa9, 0xf6bb4b60, 0xbebfbc70,
   0x289b7ec6, 0xeaa127fa, 0xd4ef3085, 0x04881d05,
   0xd9d4d039, 0xe6db99e5, 0x1fa27cf8, 0xc4ac5665,
   0xf4292244, 0x432aff97, 0xab9423a7, 0xfc93a039,
   0x655b59c3, 0x8f0ccc92, 0xffeff47d, 0x85845dd1,
   0x6fa87e4f, 0xfe2ce6e0, 0xa3014314, 0x4e0811a1,
   0xf7537e82, 0xbd3af235, 0x2ad7d2bb, 0xeb86d391]

/-- Little-endian bytes of `x`, `n` of them. -/
def leBytes : Nat → Nat → List Byte
  | 0, _ => []
  | n + 1, x => Fin.ofNat (x % 256) :: leBytes n (x / 256)

/-- Little-endian value of a byte string. -/
def leValue : List Byte → Nat
  | [] => 0
  | b :: bs => b.val + 256 * leValue bs

/-- Rotate a 32-bit word left by `c` bits. -/
def rotl32 (x c : Nat) : Nat :=
  ((x <<< c) % 2 ^ 32) ||| (x >>> (32 - c))

/-- Complement of a 32-bit word. -/
def not32 (x : Nat) : Nat := 2 ^ 32 - 1 - x

/-- The message followed by the `0x80` byte, zero padding and the bit length. -/
def md5Pad (msg : List Byte) : List Byte :=
  msg ++ [0x80] ++ List.replicate ((119 - msg.length % 64) % 64) 0
    ++ leBytes 8 ((8 * msg.length) % 2 ^ 64)

/-- The sixteen little-endian words of a 64-byte block. -/
def md5Words (block : List Byte) : List Nat :=
  (List.range 16).map (fun j => leValue ((block.drop (4 * j)).take 4))

/-- One of the 64 operations on the working state `(a, b, c, d)`. -/
def md5Step (w : List Nat) (st : Nat × Nat × Nat × Nat) (i : Nat) : Nat × Nat × Nat × Nat :=
  let (a, b, c, d) := st
  let f :=
    if i < 16 then (b &&& c) ||| (not32 b &&& d)
    else if i < 32 then (d &&& b) ||| (not32 d &&& c)
    else if i < 48 then b ^^^ c ^^^ d
    else c ^^^ (b ||| not32 d)
  let g :=
    if i < 16 then i
    else if i < 32 then (5 * i + 1) % 16
    else if i < 48 then (3 * i + 5) % 16
    else (7 * i) % 16
  let t := (a + f + md5Consts.getD i 0 + w.getD g 0) % 2 ^ 32
  (d, (b + rotl32 t (md5Shifts.getD i 0)) % 2 ^ 32, b, c)

/-- Absorb one 64-byte block into the chaining state. -/
def md5Block (st : Nat × Nat × Nat × Nat) (block : List Byte) : Nat × Nat × Nat × Nat :=
  let (a, b, c, d) := (List.range 64).foldl (md5Step (md5Words block)) st
  ((st.1 + a) % 2 ^ 32, (st.2.1 + b) % 2 ^ 32, (st.2.2.1 + c) % 2 ^ 32,
    (st.2.2.2 + d) % 2 ^ 32)

/-- Fold `md5Block` over the first `n` blocks of `bytes`. -/
def md5Blocks : Nat → List Byte → Nat × Nat × Nat × Nat → Nat × Nat × Nat × Nat
  | 0, _, st => st
  | n + 1, bytes, st => md5Blocks n (bytes.drop 64) (md5Block st (bytes.take 64))

/-- The 16-byte MD5 digest of a message. -/
def md5Sum (msg : List Byte) : List Byte :=
  let padded := md5Pad msg
  let (a, b, c, d) :=
    md5Blocks (padded.length / 64) padded (0x67452301, 0xefcdab89, 0x98badcfe, 0x10325476)
  leBytes 4 a ++ leBytes 4 b ++ leBytes 4 c ++ leBytes 4 d

/-- The function `getMD5Hash`. -/
def getMD5Hash (data : List Byte) : List Byte := md5Sum data

/-! ## Output of a run -/

/-- A call that changes the output directory tree. -/
inductive FsOp where
  /-- The call `os.MkdirAll(dir, 0755)`. -/
  | mkdirAll (dir : List Byte)
  /-- The call `os.WriteFile(name, data, 0644)`. -/
  | writeFile (name : List Byte) (data : List Byte)
  deriving DecidableEq, Repr

/-- What a (part of a) run has done: the file-system calls in order, the
paths for which the MD5-mismatch warning was printed, and the panic that
ended it, if any. -/
structure Run where
  ops : List FsOp
  warnings : List (List Byte)
  err : Option Err
  deriving DecidableEq, Repr

/-- Nothing done, no panic. -/
def Run.done : Run := ⟨[], [], none⟩

/-- A panic before anything else was done. -/
def Run.halt (e : Err) : Run := ⟨[], [], some e⟩

/-- Sequential composition: `k` runs only if `r` did not panic. -/
def Run.andThen (r k : Run) : Run :=
  match r.err with
  | some _ => r
  | none => ⟨r.ops ++ k.ops, r.warnings ++ k.warnings, k.err⟩

/-! ## Compiled-texture decoder -/

/-- The index expression `data[i]`. -/
def index (data : List Byte) (i : Nat) : Except Err Byte :=
  match data[i]? with
  | some b => .ok b
  | none => .error .outOfRange

/-- The expression `int(data[i]) | int(data[i+1])<<8 | int(data[i+2])<<16 |
int(data[i+3])<<24` over 64-bit `int`. -/
def int32At (data : List Byte) (i : Nat) : Except Err Nat := do
  let b0 ← index data i
  let b1 ← index data (i + 1)
  let b2 ← index data (i + 2)
  let b3 ← index data (i + 3)
  pure (b0.val ||| b1.val <<< 8 ||| b2.val <<< 16 ||| b3.val <<< 24)

/-- The condition `data[0] == 'G' && data[1] == 'S' && data[2] == 'T' &&
data[3] == '2'`, evaluated left to right with short-circuiting. -/
def isGST2 (data : List Byte) : Except Err Bool := do
  let b0 ← index data 0
  if b0 ≠ 0x47 then pure false else
  let b1 ← index data 1
  if b1 ≠ 0x53 then pure false else
  let b2 ← index data 2
  if b2 ≠ 0x54 then pure false else
  let b3 ← index data 3
  pure (decide (b3 = 0x32))

/-- The verb `%d` of `fmt.Sprintf` on a non-negative `int`. -/
def decimal (i : Nat) : List Byte :=
  (Nat.toDigits 10 i).map (fun c => Fin.ofNat c.toNat)

/-- The name `fmt.Sprintf("%s_%d", path, i)`. -/
def mipmapName (path : List Byte) (i : Nat) : List Byte :=
  path ++ ascii "_" ++ decimal i

/-- The mipmap loop of `unpackImageResource`; the first argument is the number
of iterations left, `mipmaps - i`.  The loop keeps `base ≤ len(data)` and a
size is below 2^32, so for a slice within Go's allocation limit the `int`
additions do not wrap and are taken over `Nat`. -/
def mipmapLoop (path data : List Byte) : Nat → Nat → Nat → Run
  | 0, _, _ => Run.done
  | n + 1, i, base =>
    if base + 4 > data.length then Run.done
    else
      match int32At data base with
      | .error e => Run.halt e
      | .ok size =>
        if base + 4 + size > data.length then Run.halt .outOfRange
        else
          Run.andThen
            ⟨[FsOp.writeFile (mipmapName path i) ((data.drop (base + 4)).take size)], [], none⟩
            (mipmapLoop path data n (i + 1) (base + 4 + size))

/-- The function `unpackImageResource`, for a slice whose capacity equals its
length (as `main` passes it). -/
def unpackImageResource (path data : List Byte) : Run :=
  match isGST2 data with
  | .error e => Run.halt e
  | .ok false => Run.done
  | .ok true =>
    match int32At data 4 with
    | .error e => Run.halt e
    | .ok version =>
      if version ≠ 1 then Run.halt .unsupportedGST2Version
      else
        match int32At data 8 with
        | .error e => Run.halt e
        | .ok _width =>
          match int32At data 12 with
          | .error e => Run.halt e
          | .ok _height =>
            match int32At data 36 with
            | .error e => Run.halt e
            | .ok _format =>
              match int32At data 36 with
              | .error e => Run.halt e
              | .ok mipmaps => mipmapLoop path data mipmaps 0 0x34

/-! ## Header and directory table -/

/-- The header fields `main` keeps in local variables. -/
structure Header where
  formatVersion : Nat
  engineMajorVersion : Nat
  engineMinorVersion : Nat
  enginePatchVersion : Nat
  flags : Nat
  filesBase : Nat
  numFiles : Nat
  deriving DecidableEq, Repr

/-- The loop `for i := 0; i < 16; i++ { _ = readUint32(file) }`, with `n`
iterations left. -/
def skipReserved (content : List Byte) : Nat → Nat → Except Err Nat
  | 0, pos => .ok pos
  | n + 1, pos =>
    match readUint32 content pos with
    | .error e => .error e
    | .ok (_, pos1) => skipReserved content n pos1

/-- Lines 125-173 of `main`: magic, version, engine version, flags, files
base, reserved words and entry count.  Returns the cursor after the header. -/
def readHeader (content : List Byte) : Except Err (Header × Nat) := do
  let (headerByte, p) ← fileRead content 0 4
  if headerByte ≠ MAGIC then throw .invalidHeader
  let (formatVersion, p) ← readUint32 content p
  if formatVersion ≠ 2 then throw .unsupportedVersion
  let (engineMajorVersion, p) ← readUint32 content p
  let (engineMinorVersion, p) ← readUint32 content p
  let (enginePatchVersion, p) ← readUint32 content p
  let (flags, p) ← readUint32 content p
  if flags ≠ 0 then throw .unsupportedFlags
  let (filesBase, p) ← readUint64 content p
  let p ← skipReserved content 16 p
  let (numFiles, p) ← readUint32 content p
  pure (⟨formatVersion, engineMajorVersion, engineMinorVersion, enginePatchVersion,
    flags, filesBase, numFiles⟩, p)

/-- The call `strings.Trim(path, "\x00")`: NUL bytes are cut from both ends. -/
def trimNul (path : List Byte) : List Byte :=
  ((path.dropWhile (fun b => b = 0)).reverse.dropWhile (fun b => b = 0)).reverse

/-- One iteration of the directory loop (lines 179-236).  Returns the record
and the cursor after it. -/
def readEntry (content : List Byte) (pos : Nat) : Except Err (File × Nat) := do
  let (pathLen, p) ← readUint32 content pos
  let (pathByte, p) ← fileRead content p pathLen
  let path := trimNul pathByte
  let padding := 4 - pathLen % 4
  let p := if padding ≠ 4 then p + padding else p
  let (fileOffset, p) ← readUint64 content p
  let (fileSize, p) ← readUint64 content p
  let (md5Byte, p) ← fileRead content p 16
  let (fileFlags, p) ← readUint32 content p
  if fileFlags ≠ 0 then throw .unsupportedFileFlags
  pure (⟨path, fileOffset, fileSize, md5Byte, decide (fileFlags &&& PackFileEncrypted ≠ 0)⟩, p)

/-- The directory loop, with `n` iterations left: the records in read order. -/
def readEntries (content : List Byte) : Nat → Nat → Except Err (List File × Nat)
  | 0, pos => .ok ([], pos)
  | n + 1, pos =>
    match readEntry content pos with
    | .error e => .error e
    | .ok (f, pos1) =>
      match readEntries content n pos1 with
      | .error e => .error e
      | .ok (fs, pos2) => .ok (f :: fs, pos2)

/-- Header and directory parsing of `main` (lines 125-237). -/
def parseArchive (content : List Byte) : Except Err (Header × List File) :=
  match readHeader content with
  | .error e => .error e
  | .ok (hdr, pos) =>
    match readEntries content hdr.numFiles pos with
    | .error e => .error e
    | .ok (files, _) => .ok (hdr, files)

/-! ## Extraction -/

/-- The conversion `int64(x)` of a `uint64`. -/
def toInt64 (x : Nat) : Int :=
  if x % 2 ^ 64 < 2 ^ 63 then ((x % 2 ^ 64 : Nat) : Int)
  else ((x % 2 ^ 64 : Nat) : Int) - 2 ^ 64

/-- The argument of `file.Seek(int64(f.ofs+filesBase), 0)`. -/
def seekTarget (filesBase : Nat) (f : File) : Int :=
  toInt64 ((f.ofs + filesBase) % 2 ^ 64)

/-- The call `strings.LastIndex(s, c)` for a one-byte `c`. -/
def lastIndexByte (s : List Byte) (c : Byte) : Option Nat :=
  match s with
  | [] => none
  | b :: t =>
    match lastIndexByte t c with
    | some i => some (i + 1)
    | none => if b = c then some 0 else none

/-- The verb `%x` of `fmt.Sprintf` on a byte slice: two lower-case hex digits
per byte. -/
def hexEncode (bs : List Byte) : List Char :=
  bs.flatMap (fun b => [Nat.digitChar (b.val / 16), Nat.digitChar (b.val % 16)])

/-- Lines 252-256: the slice `f.path[:6]` panics on a path shorter than 6;
otherwise a leading `res://` is cut and `export/` is put in front. -/
def destPath (path : List Byte) : Except Err (List Byte) :=
  if path.length < 6 then .error .outOfRange
  else
    let path1 := if path.take 6 = ascii "res://" then path.drop 6 else path
    .ok (ascii "export/" ++ path1)

/-- Lines 258-260: the `MkdirAll` call, made when the path contains `/`. -/
def mkdirOps (dest : List Byte) : List FsOp :=
  match lastIndexByte dest 0x2f with
  | some i => [FsOp.mkdirAll (dest.take i)]
  | none => []

/-- Lines 269-271: the paths warned about for data `data` written to `dest`. -/
def md5Warnings (dest data md5 : List Byte) : List (List Byte) :=
  if hexEncode (getMD5Hash data) ≠ hexEncode md5 then [dest] else []

/-- One iteration of the extraction loop (lines 242-274). -/
def extractEntry (content : List Byte) (filesBase : Nat) (f : File) : Run :=
  let target := seekTarget filesBase f
  if target < 0 then Run.halt .seekInvalid
  else if maxAlloc < f.size then Run.halt .makeslice
  else
    match fileRead content target.toNat f.size with
    | .error e => Run.halt e
    | .ok (data, _) =>
      match destPath f.path with
      | .error e => Run.halt e
      | .ok dest =>
        Run.andThen
          ⟨mkdirOps dest ++ [FsOp.writeFile dest data], md5Warnings dest data f.md5, none⟩
          (if (ascii ".ctex").isSuffixOf dest then unpackImageResource dest data
           else Run.done)

/-- The extraction loop `for i, f := range files`. -/
def extractLoop (content : List Byte) (filesBase : Nat) : List File → Run
  | [] => Run.done
  | f :: fs => Run.andThen (extractEntry content filesBase f) (extractLoop content filesBase fs)

/-- The function `main`, run on an opened archive with content `content`. -/
def main (content : List Byte) : Run :=
  match parseArchive content with
  | .error e => Run.halt e
  | .ok (hdr, files) => extractLoop content hdr.filesBase files

/-! ## The archive layout of the specification -/

/-- A directory record as it is laid out in an archive. -/
structure Record where
  path : List Byte
  ofs : Nat
  size : Nat
  md5 : List Byte
  flags : Nat
  deriving DecidableEq, Repr

/-- The specification's `padding(alignment, n) = (alignment - (n mod
alignment)) mod alignment`, at alignment 4. -/
def padLen (n : Nat) : Nat := (4 - n % 4) % 4

/-- One record of the specification's binary layout: `pathLen(u32) · path ·
pad(0..3 bytes to align to 4) · offset(u64) · size(u64) · digest(16 bytes) ·
fileFlags(u32)`, integers little-endian. -/
def layoutRecord (r : Record) : List Byte :=
  leBytes 4 r.path.length ++ r.path ++ List.replicate (padLen r.path.length) 0
    ++ leBytes 8 r.ofs ++ leBytes 8 r.size ++ r.md5 ++ leBytes 4 r.flags

/-- The specification's binary layout up to the end of the directory table:
`magic(4) · formatVersion(u32) · engineMajor(u32) · engineMinor(u32) ·
enginePatch(u32) · flags(u32) · filesBase(u64) · reserved(16×u32) ·
entryCount(u32)` followed by the records. -/
def layoutArchive (version major minor patch flags filesBase : Nat)
    (reserved : List Nat) (records : List Record) : List Byte :=
  ascii "GDPC" ++ leBytes 4 version ++ leBytes 4 major ++ leBytes 4 minor
    ++ leBytes 4 patch ++ leBytes 4 flags ++ leBytes 8 filesBase
    ++ reserved.flatMap (leBytes 4) ++ leBytes 4 records.length
    ++ records.flatMap layoutRecord

/-- The `File` that `main` is meant to keep for a record. -/
def Record.toFile (r : Record) : File :=
  ⟨r.path, r.ofs, r.size, r.md5, false⟩

/-- The archive of the specification's scenario for a given `filesBase`:
version 2, engine (4,2,0), flags 0, 16 zero reserved words, one record with
path `res://a.txt`, offset 0, size 5, digest MD5("hello") and flags 0,
followed by the payload `hello`. -/
def scenarioArchive (filesBase : Nat) : List Byte :=
  layoutArchive 2 4 2 0 0 filesBase (List.replicate 16 0)
    [⟨ascii "res://a.txt", 0, 5, md5Sum (ascii "hello"), 0⟩] ++ ascii "hello"

/-- An archive in the specification's layout with one record (version 2,
engine (4,2,0), flags 0, 16 zero reserved words, digest = MD5 of `payload`,
record flags 0) followed by `payload`. -/
def oneEntryArchive (filesBase : Nat) (path : List Byte) (ofs size : Nat)
    (payload : List Byte) : List Byte :=
  layoutArchive 2 4 2 0 0 filesBase (List.replicate 16 0)
    [⟨path, ofs, size, md5Sum payload, 0⟩] ++ payload

/-- Two records that agree in everything but the stored digest. -/
def sameButDigest (f g : File) : Prop :=
  f.path = g.path ∧ f.ofs = g.ofs ∧ f.size = g.size ∧ f.encrypted = g.encrypted

/-- The mipmap records of a texture container: each payload preceded by its
length as a little-endian u32. -/
def mipmapRecords (ds : List (List Byte)) : List Byte :=
  ds.flatMap (fun d => leBytes 4 d.length ++ d)

/-- One `WriteFile` per payload, named `path_i`, `path_(i+1)`, ... in order. -/
def mipmapWrites (path : List Byte) : Nat → List (List Byte) → List FsOp
  | _, [] => []
  | i, d :: ds => FsOp.writeFile (mipmapName path i) d :: mipmapWrites path (i + 1) ds

/-- The fields of a record fit the layout and the parser: a path that one
`Read` call delivers whole (at most `maxRW` bytes, hence a length below 2^32),
flags in a u32, offset and size in a u64, and a 16-byte digest. -/
def Record.fits (r : Record) : Prop :=
  r.path.length ≤ maxRW ∧ r.ofs < 2 ^ 64 ∧ r.size < 2 ^ 64 ∧ r.md5.length = 16 ∧
    r.flags < 2 ^ 32

/-- The wrap of a mathematical integer into Go's 64-bit `int`. -/
def wrapInt64 (x : Int) : Int := toInt64 (x % 2 ^ 64).toNat

/-- The function `getPad` on 64-bit `int` arguments: `none` is the run-time
panic of `n % alignment` for `alignment == 0`; `%` truncates towards zero. -/
def getPad (alignment n : Int) : Option Int :=
  if alignment = 0 then none
  else
    let rest := Int.tmod n alignment
    let pad := if rest > 0 then wrapInt64 (alignment - rest) else 0
    some pad

/-- The number of bytes lines 190-197 of `main` skip after a path of length
`pathLen`: `padding := 4 - (pathLen % 4)`, skipped unless it equals 4. -/
def inlinePadding (pathLen : Nat) : Nat :=
  let padding := 4 - pathLen % 4
  if padding ≠ 4 then padding else 0

/-- The raw path field with its trailing NUL bytes removed and nothing else,
as the specification words the path of an entry. -/
def stripTrailingNul (raw : List Byte) : List Byte :=
  (raw.reverse.dropWhile (fun b => b = 0)).reverse

/-- An archive in the specification's layout whose one record, `res://a.bin`
at offset 0 with an all-zero stored digest, declares `size` bytes, followed by
`payload` (version 2, engine (4,2,0), flags 0, `filesBase` 152, the end of the
directory). -/
def bigPayloadArchive (size : Nat) (payload : List Byte) : List Byte :=
  layoutArchive 2 4 2 0 0 152 (List.replicate 16 0)
    [⟨ascii "res://a.bin", 0, size, List.replicate 16 0, 0⟩] ++ payload

/-! ## The scenario of the specification -/

set_option maxRecDepth 1000000 in
/-- C1 (as stated, refuted): on the scenario archive with `filesBase = 128` the
run completes and writes `export/a.txt`, but the five bytes it writes are the
archive bytes 128..132, which lie inside the directory record (upper half of
the size field and first digest byte), not `hello`, and the MD5-mismatch
warning is printed. -/
theorem scenario_filesBase_128_not_hello :
    main (scenarioArchive 128) =
        ⟨[FsOp.mkdirAll (ascii "export"),
          FsOp.writeFile (ascii "export/a.txt") [0, 0, 0, 0, 0x5d]],
         [ascii "export/a.txt"], none⟩ ∧
      FsOp.writeFile (ascii "export/a.txt") (ascii "hello") ∉ (main (scenarioArchive 128)).ops ∧
      (main (scenarioArchive 128)).warnings ≠ [] := by
  decide

set_option maxRecDepth 1000000 in
/-- C1 (amended): with `filesBase = 152`, the end of the 100-byte header and
the 52-byte record, the run on the scenario archive completes without a panic,
its only file-system calls are `MkdirAll("export")` and one `WriteFile` of
`export/a.txt` with content `hello`, and no MD5-mismatch warning is printed. -/
theorem scenario_filesBase_152_extracts_hello :
    (layoutArchive 2 4 2 0 0 152 (List.replicate 16 0)
        [⟨ascii "res://a.txt", 0, 5, md5Sum (ascii "hello"), 0⟩]).length = 152 ∧
      main (scenarioArchive 152) =
        ⟨[FsOp.mkdirAll (ascii "export"),
          FsOp.writeFile (ascii "export/a.txt") (ascii "hello")],
         [], none⟩ := by
  decide

/-! ## Little-endian decoding -/

theorem or_shiftLeft_of_lt (x y k : Nat) (h : x < 2 ^ k) : x ||| (y <<< k) = x + 2 ^ k * y := by
  rw [Nat.shiftLeft_eq, Nat.or_comm, Nat.mul_comm, ← Nat.mul_add_lt_is_or h, Nat.add_comm]

theorem bytesToUint32_cons (b0 b1 b2 b3 : Byte) (t : List Byte) :
    bytesToUint32 (b0 :: b1 :: b2 :: b3 :: t)
      = some (b0.val + 256 * b1.val + 65536 * b2.val + 16777216 * b3.val) := by
  have h0 := b0.isLt
  have h1 := b1.isLt
  have h2 := b2.isLt
  have h3 := b3.isLt
  have e1 : (b1.val <<< 8) % 2 ^ 32 = b1.val <<< 8 := by
    rw [Nat.shiftLeft_eq]; apply Nat.mod_eq_of_lt; omega
  have e2 : (b2.val <<< 16) % 2 ^ 32 = b2.val <<< 16 := by
    rw [Nat.shiftLeft_eq]; apply Nat.mod_eq_of_lt; omega
  have e3 : (b3.val <<< 24) % 2 ^ 32 = b3.val <<< 24 := by
    rw [Nat.shiftLeft_eq]; apply Nat.mod_eq_of_lt; omega
  simp only [bytesToUint32, e1, e2, e3]
  rw [or_shiftLeft_of_lt _ _ 8 (by omega), or_shiftLeft_of_lt _ _ 16 (by omega),
    or_shiftLeft_of_lt _ _ 24 (by omega)]
  norm_num

theorem bytesToUint64_cons (b0 b1 b2 b3 b4 b5 b6 b7 : Byte) (t : List Byte) :
    bytesToUint64 (b0 :: b1 :: b2 :: b3 :: b4 :: b5 :: b6 :: b7 :: t)
      = some (b0.val + 256 * b1.val + 65536 * b2.val + 16777216 * b3.val
          + 4294967296 * b4.val + 1099511627776 * b5.val + 281474976710656 * b6.val
          + 72057594037927936 * b7.val) := by
  have h0 := b0.isLt
  have h1 := b1.isLt
  have h2 := b2.isLt
  have h3 := b3.isLt
  have h4 := b4.isLt
  have h5 := b5.isLt
  have h6 := b6.isLt
  have h7 := b7.isLt
  have e1 : (b1.val <<< 8) % 2 ^ 64 = b1.val <<< 8 := by
    rw [Nat.shiftLeft_eq]; apply Nat.mod_eq_of_lt; omega
  have e2 : (b2.val <<< 16) % 2 ^ 64 = b2.val <<< 16 := by
    rw [Nat.shiftLeft_eq]; apply Nat.mod_eq_of_lt; omega
  have e3 : (b3.val <<< 24) % 2 ^ 64 = b3.val <<< 24 := by
    rw [Nat.shiftLeft_eq]; apply Nat.mod_eq_of_lt; omega
  have e4 : (b4.val <<< 32) % 2 ^ 64 = b4.val <<< 32 := by
    rw [Nat.shiftLeft_eq]; apply Nat.mod_eq_of_lt; omega
  have e5 : (b5.val <<< 40) % 2 ^ 64 = b5.val <<< 40 := by
    rw [Nat.shiftLeft_eq]; apply Nat.mod_eq_of_lt; omega
  have e6 : (b6.val <<< 48) % 2 ^ 64 = b6.val <<< 48 := by
    rw [Nat.shiftLeft_eq]; apply Nat.mod_eq_of_lt; omega
  have e7 : (b7.val <<< 56) % 2 ^ 64 = b7.val <<< 56 := by
    rw [Nat.shiftLeft_eq]; apply Nat.mod_eq_of_lt; omega
  simp only [bytesToUint64, e1, e2, e3, e4, e5, e6, e7]
  rw [or_shiftLeft_of_lt _ _ 8 (by omega), or_shiftLeft_of_lt _ _ 16 (by omega),
    or_shiftLeft_of_lt _ _ 24 (by omega), or_shiftLeft_of_lt _ _ 32 (by omega),
    or_shiftLeft_of_lt _ _ 40 (by omega), or_shiftLeft_of_lt _ _ 48 (by omega),
    or_shiftLeft_of_lt _ _ 56 (by omega)]
  norm_num

theorem leBytes_length (n x : Nat) : (leBytes n x).length = n := by
  induction n generalizing x with
  | zero => rfl
  | succ n ih => simp [leBytes, ih]

theorem byte_ofNat_val (x : Nat) : (Fin.ofNat (x % 256) : Byte).val = x % 256 := by
  simp [Fin.ofNat]

theorem bytesToUint32_leBytes (v : Nat) (hv : v < 2 ^ 32) (t : List Byte) :
    bytesToUint32 (leBytes 4 v ++ t) = some v := by
  simp only [leBytes, List.cons_append, List.nil_append, bytesToUint32_cons, byte_ofNat_val]
  congr 1
  omega

theorem bytesToUint64_leBytes (v : Nat) (hv : v < 2 ^ 64) (t : List Byte) :
    bytesToUint64 (leBytes 8 v ++ t) = some v := by
  simp only [leBytes, List.cons_append, List.nil_append, bytesToUint64_cons, byte_ofNat_val]
  congr 1
  omega

/-! ## Reading from the archive file -/

theorem leValue_lt (l : List Byte) : leValue l < 256 ^ l.length := by
  induction l with
  | nil => simp [leValue]
  | cons b t ih =>
    have hb := b.isLt
    simp only [leValue, List.length_cons, pow_succ]
    omega

theorem leBytes_leValue (l : List Byte) : leBytes l.length (leValue l) = l := by
  induction l with
  | nil => rfl
  | cons b t ih =>
    have hb := b.isLt
    simp only [leValue, List.length_cons, leBytes]
    have h1 : (b.val + 256 * leValue t) % 256 = b.val := by omega
    have h2 : (b.val + 256 * leValue t) / 256 = leValue t := by omega
    rw [h1, h2, ih]
    congr 1
    apply Fin.ext
    simp [Fin.ofNat]

theorem min_four_maxRW : min 4 maxRW = 4 := by decide

theorem min_eight_maxRW : min 8 maxRW = 8 := by decide

theorem le_maxRW_of_le (n : Nat) (h : n ≤ 16) : n ≤ maxRW := by
  unfold maxRW
  omega

theorem fileRead_of_drop (content xs tl : List Byte) (pos : Nat)
    (h : content.drop pos = xs ++ tl) (hcap : xs.length ≤ maxRW) :
    fileRead content pos xs.length = .ok (xs, pos + xs.length) := by
  unfold fileRead
  rw [Nat.min_eq_left hcap]
  by_cases hx : xs.length = 0
  · have : xs = [] := List.length_eq_zero.mp hx
    simp [this]
  · have hlt : ¬ content.length ≤ pos := by
      intro hle
      rw [List.drop_of_length_le hle] at h
      have := congrArg List.length h
      simp at this
      omega
    simp [hx, hlt, h]

theorem drop_add_of_drop (content xs tl : List Byte) (pos : Nat)
    (h : content.drop pos = xs ++ tl) : content.drop (pos + xs.length) = tl := by
  have : content.drop (pos + xs.length) = (content.drop pos).drop xs.length := by
    rw [List.drop_drop, Nat.add_comm]
  rw [this, h]
  simp

theorem fileRead_of_le (content : List Byte) (pos n : Nat) (h : pos + n ≤ content.length)
    (hcap : n ≤ maxRW) :
    fileRead content pos n = .ok ((content.drop pos).take n, pos + n) := by
  have hlen : ((content.drop pos).take n).length = n := by
    simp [List.length_take, List.length_drop]; omega
  have := fileRead_of_drop content ((content.drop pos).take n) ((content.drop pos).drop n) pos
    (List.take_append_drop n _).symm (by rw [hlen]; exact hcap)
  rw [hlen] at this
  exact this

theorem fileRead_eof (content : List Byte) (pos n : Nat) (hn : 0 < n)
    (h : content.length ≤ pos) : fileRead content pos n = .error .eof := by
  unfold fileRead
  simp [h, Nat.pos_iff_ne_zero.mp hn]

theorem readUint32_of_drop (content tl : List Byte) (pos v : Nat) (hv : v < 2 ^ 32)
    (h : content.drop pos = leBytes 4 v ++ tl) :
    readUint32 content pos = .ok (v, pos + 4) := by
  have := fileRead_of_drop content (leBytes 4 v) tl pos h
    (le_maxRW_of_le _ (by rw [leBytes_length]; omega))
  rw [leBytes_length] at this
  have hb := bytesToUint32_leBytes v hv []
  simp only [List.append_nil] at hb
  simp only [readUint32, this, hb]

theorem readUint64_of_drop (content tl : List Byte) (pos v : Nat) (hv : v < 2 ^ 64)
    (h : content.drop pos = leBytes 8 v ++ tl) :
    readUint64 content pos = .ok (v, pos + 8) := by
  have := fileRead_of_drop content (leBytes 8 v) tl pos h
    (le_maxRW_of_le _ (by rw [leBytes_length]; omega))
  rw [leBytes_length] at this
  have hb := bytesToUint64_leBytes v hv []
  simp only [List.append_nil] at hb
  simp only [readUint64, this, hb]

theorem readUint32_of_le (content : List Byte) (pos : Nat) (h : pos + 4 ≤ content.length) :
    readUint32 content pos = .ok (leValue ((content.drop pos).take 4), pos + 4) := by
  have hlen : ((content.drop pos).take 4).length = 4 := by
    simp [List.length_take, List.length_drop]; omega
  apply readUint32_of_drop content ((content.drop pos).drop 4)
  · have := leValue_lt ((content.drop pos).take 4)
    rw [hlen] at this
    omega
  · have := leBytes_leValue ((content.drop pos).take 4)
    rw [hlen] at this
    rw [this, List.take_append_drop]

theorem readUint64_of_le (content : List Byte) (pos : Nat) (h : pos + 8 ≤ content.length) :
    readUint64 content pos = .ok (leValue ((content.drop pos).take 8), pos + 8) := by
  have hlen : ((content.drop pos).take 8).length = 8 := by
    simp [List.length_take, List.length_drop]; omega
  apply readUint64_of_drop content ((content.drop pos).drop 8)
  · have := leValue_lt ((content.drop pos).take 8)
    rw [hlen] at this
    omega
  · have := leBytes_leValue ((content.drop pos).take 8)
    rw [hlen] at this
    rw [this, List.take_append_drop]

theorem readUint32_eof (content : List Byte) (pos : Nat) (h : content.length ≤ pos) :
    readUint32 content pos = .error .eof := by
  simp only [readUint32, fileRead_eof content pos 4 (by omega) h]

theorem readUint32_pos_le (content : List Byte) (pos v p : Nat)
    (h : readUint32 content pos = .ok (v, p)) : p ≤ content.length ∧ pos < p := by
  unfold readUint32 fileRead at h
  by_cases hle : content.length ≤ pos
  · simp [hle] at h
  · simp only [hle, if_false] at h
    simp only [show (4 : Nat) ≠ 0 by omega, if_false, min_four_maxRW] at h
    split at h
    · simp at h
    · simp only [Except.ok.injEq, Prod.mk.injEq] at h
      obtain ⟨_, rfl⟩ := h
      simp only [List.length_take, List.length_drop]
      omega

/-! ## Header validation -/

theorem MAGIC_eq : MAGIC = [71, 68, 80, 67] := by decide

theorem magic_read_eq (content buf : List Byte) (p : Nat)
    (h : fileRead content 0 4 = .ok (buf, p)) (hb : buf = MAGIC) :
    content.take 4 = MAGIC ∧ p = 4 := by
  subst hb
  rw [MAGIC_eq] at h ⊢
  rcases content with _ | ⟨a, _ | ⟨b, _ | ⟨c, _ | ⟨d, t⟩⟩⟩⟩
  · simp [fileRead, min_four_maxRW] at h
  · simp [fileRead, min_four_maxRW] at h
  · simp [fileRead, min_four_maxRW] at h
  · simp [fileRead, min_four_maxRW] at h
  · simp [fileRead, min_four_maxRW] at h
    obtain ⟨⟨rfl, rfl, rfl, rfl⟩, rfl⟩ := h
    simp

theorem magic_read_ne (content : List Byte) (hne : content ≠ [])
    (h : content.take 4 ≠ MAGIC) :
    ∃ buf p, fileRead content 0 4 = .ok (buf, p) ∧ buf ≠ MAGIC := by
  rw [MAGIC_eq] at h ⊢
  rcases content with _ | ⟨a, _ | ⟨b, _ | ⟨c, _ | ⟨d, t⟩⟩⟩⟩
  · exact absurd rfl hne
  · exact ⟨[a, 0, 0, 0], 1, by simp [fileRead, min_four_maxRW], by simp⟩
  · exact ⟨[a, b, 0, 0], 2, by simp [fileRead, min_four_maxRW], by simp⟩
  · exact ⟨[a, b, c, 0], 3, by simp [fileRead, min_four_maxRW], by simp⟩
  · exact ⟨[a, b, c, d], 4, by simp [fileRead, min_four_maxRW], by simpa using h⟩

theorem readHeader_bad_magic (content : List Byte) (hne : content ≠ [])
    (h : content.take 4 ≠ MAGIC) : readHeader content = .error .invalidHeader := by
  obtain ⟨buf, p, h1, h2⟩ := magic_read_ne content hne h
  simp [readHeader, h1, h2, bind, Except.bind, throw, throwThe, MonadExceptOf.throw]

theorem readUint32_ok_pos (content : List Byte) (pos v p : Nat)
    (h : readUint32 content pos = .ok (v, p)) :
    pos < content.length ∧ p = pos + min 4 (content.length - pos) := by
  unfold readUint32 fileRead at h
  by_cases hle : content.length ≤ pos
  · simp [hle] at h
  · simp only [hle, if_false] at h
    simp only [show (4 : Nat) ≠ 0 by omega, if_false, min_four_maxRW] at h
    split at h
    · simp at h
    · simp only [Except.ok.injEq, Prod.mk.injEq] at h
      obtain ⟨_, rfl⟩ := h
      refine ⟨by omega, ?_⟩
      simp [List.length_take, List.length_drop]

theorem readUint64_ok_pos (content : List Byte) (pos v p : Nat)
    (h : readUint64 content pos = .ok (v, p)) :
    pos < content.length ∧ p = pos + min 8 (content.length - pos) := by
  unfold readUint64 fileRead at h
  by_cases hle : content.length ≤ pos
  · simp [hle] at h
  · simp only [hle, if_false] at h
    simp only [show (8 : Nat) ≠ 0 by omega, if_false, min_eight_maxRW] at h
    split at h
    · simp at h
    · simp only [Except.ok.injEq, Prod.mk.injEq] at h
      obtain ⟨_, rfl⟩ := h
      refine ⟨by omega, ?_⟩
      simp [List.length_take, List.length_drop]

theorem readUint32_ok_full (content : List Byte) (pos v p : Nat)
    (h : readUint32 content pos = .ok (v, p)) (hp : p < content.length) :
    p = pos + 4 ∧ v = leValue ((content.drop pos).take 4) := by
  obtain ⟨h1, h2⟩ := readUint32_ok_pos content pos v p h
  have hfull : pos + 4 ≤ content.length := by omega
  rw [readUint32_of_le content pos hfull] at h
  simp only [Except.ok.injEq, Prod.mk.injEq] at h
  exact ⟨h.2.symm, h.1.symm⟩

/-- What a successful header parse says about the file. -/
theorem readHeader_ok_inv (content : List Byte) (hdr : Header) (p : Nat)
    (h : readHeader content = .ok (hdr, p)) :
    content.take 4 = MAGIC ∧ 24 < content.length ∧
      leValue ((content.drop 4).take 4) = 2 ∧ hdr.formatVersion = 2 ∧
      leValue ((content.drop 20).take 4) = 0 ∧ hdr.flags = 0 := by
  rcases h1 : fileRead content 0 4 with e | ⟨buf, p1⟩
  · simp [readHeader, h1, bind, Except.bind] at h
  by_cases hm : buf = MAGIC
  swap
  · simp [readHeader, h1, hm, bind, Except.bind, throw, throwThe, MonadExceptOf.throw] at h
  rcases h2 : readUint32 content p1 with e | ⟨ver, p2⟩
  · simp [readHeader, h1, hm, h2, bind, Except.bind, pure, Except.pure] at h
  by_cases hv : ver = 2
  swap
  · simp [readHeader, h1, hm, h2, hv, bind, Except.bind, pure, Except.pure, throw, throwThe,
      MonadExceptOf.throw] at h
  rcases h3 : readUint32 content p2 with e | ⟨major, p3⟩
  · simp [readHeader, h1, hm, h2, hv, h3, bind, Except.bind, pure, Except.pure] at h
  rcases h4 : readUint32 content p3 with e | ⟨minor, p4⟩
  · simp [readHeader, h1, hm, h2, hv, h3, h4, bind, Except.bind, pure, Except.pure] at h
  rcases h5 : readUint32 content p4 with e | ⟨patch, p5⟩
  · simp [readHeader, h1, hm, h2, hv, h3, h4, h5, bind, Except.bind, pure, Except.pure] at h
  rcases h6 : readUint32 content p5 with e | ⟨flags, p6⟩
  · simp [readHeader, h1, hm, h2, hv, h3, h4, h5, h6, bind, Except.bind, pure, Except.pure] at h
  by_cases hf : flags = 0
  swap
  · simp [readHeader, h1, hm, h2, hv, h3, h4, h5, h6, hf, bind, Except.bind, pure, Except.pure,
      throw, throwThe, MonadExceptOf.throw] at h
  rcases h7 : readUint64 content p6 with e | ⟨filesBase, p7⟩
  · simp [readHeader, h1, hm, h2, hv, h3, h4, h5, h6, hf, h7, bind, Except.bind, pure,
      Except.pure] at h
  rcases h8 : skipReserved content 16 p7 with e | p8
  · simp [readHeader, h1, hm, h2, hv, h3, h4, h5, h6, hf, h7, h8, bind, Except.bind, pure,
      Except.pure] at h
  rcases h9 : readUint32 content p8 with e | ⟨numFiles, p9⟩
  · simp [readHeader, h1, hm, h2, hv, h3, h4, h5, h6, hf, h7, h8, h9, bind, Except.bind, pure,
      Except.pure] at h
  simp [readHeader, h1, hm, h2, hv, h3, h4, h5, h6, hf, h7, h8, h9, bind, Except.bind, pure,
      Except.pure] at h
  obtain ⟨rfl, rfl⟩ := h
  obtain ⟨hmagic, rfl⟩ := magic_read_eq content buf p1 h1 hm
  have l6 := (readUint64_ok_pos content p6 _ _ h7).1
  have l5 := (readUint32_ok_pos content p5 _ _ h6).2
  have l4 := (readUint32_ok_pos content p4 _ _ h5).2
  have l3 := (readUint32_ok_pos content p3 _ _ h4).2
  have l2 := (readUint32_ok_pos content p2 _ _ h3).2
  have l1 := (readUint32_ok_pos content 4 _ _ h2).2
  obtain ⟨e6, f6⟩ := readUint32_ok_full content p5 _ _ h6 l6
  obtain ⟨e5, _⟩ := readUint32_ok_full content p4 _ _ h5 (by omega)
  obtain ⟨e4, _⟩ := readUint32_ok_full content p3 _ _ h4 (by omega)
  obtain ⟨e3, _⟩ := readUint32_ok_full content p2 _ _ h3 (by omega)
  obtain ⟨e2, f2⟩ := readUint32_ok_full content 4 _ _ h2 (by omega)
  have hp5 : p5 = 20 := by omega
  subst hp5
  refine ⟨hmagic, by omega, ?_, rfl, ?_, rfl⟩
  · rw [← f2, hv]
  · rw [← f6, hf]

theorem readHeader_bad_version (content : List Byte) (hm : content.take 4 = MAGIC)
    (hlen : 8 ≤ content.length) (hv : leValue ((content.drop 4).take 4) ≠ 2) :
    readHeader content = .error .unsupportedVersion := by
  have h1 := fileRead_of_le content 0 4 (by omega) (le_maxRW_of_le 4 (by omega))
  have h2 := readUint32_of_le content 4 (by omega)
  simp only [List.drop_zero, Nat.zero_add] at h1
  simp [readHeader, h1, hm, h2, hv, bind, Except.bind, pure, Except.pure, throw, throwThe,
    MonadExceptOf.throw]

theorem readHeader_bad_flags (content : List Byte) (hm : content.take 4 = MAGIC)
    (hver : leValue ((content.drop 4).take 4) = 2)
    (hlen : 24 ≤ content.length) (hf : leValue ((content.drop 20).take 4) ≠ 0) :
    readHeader content = .error .unsupportedFlags := by
  have h1 := fileRead_of_le content 0 4 (by omega) (le_maxRW_of_le 4 (by omega))
  have h2 := readUint32_of_le content 4 (by omega)
  have h3 := readUint32_of_le content 8 (by omega)
  have h4 := readUint32_of_le content 12 (by omega)
  have h5 := readUint32_of_le content 16 (by omega)
  have h6 := readUint32_of_le content 20 (by omega)
  simp only [List.drop_zero, Nat.zero_add] at h1
  simp [readHeader, h1, hm, h2, hver, h3, h4, h5, h6, hf, bind, Except.bind, pure, Except.pure,
    throw, throwThe, MonadExceptOf.throw]

theorem main_of_parse_error (content : List Byte) (e : Err)
    (h : parseArchive content = .error e) : main content = Run.halt e := by
  simp only [main, h]

theorem parseArchive_of_header_error (content : List Byte) (e : Err)
    (h : readHeader content = .error e) : parseArchive content = .error e := by
  simp only [parseArchive, h]

/-- C4: a non-empty file whose first four bytes are not `GDPC` makes `main`
panic with "Invalid file header" and nothing written; a file with the magic,
at least eight bytes and a little-endian u32 other than 2 at offset 4 makes it
panic with "Unsupported PCK file version"; and whenever header parsing
succeeds, bytes 0..3 are `GDPC` and the u32 at offset 4 is 2. -/
theorem header_validation (content : List Byte) :
    (content ≠ [] → content.take 4 ≠ MAGIC →
        readHeader content = .error .invalidHeader ∧ main content = Run.halt .invalidHeader) ∧
    (content.take 4 = MAGIC → 8 ≤ content.length → leValue ((content.drop 4).take 4) ≠ 2 →
        readHeader content = .error .unsupportedVersion ∧
        main content = Run.halt .unsupportedVersion) ∧
    (∀ hdr p, readHeader content = .ok (hdr, p) →
        content.take 4 = MAGIC ∧ leValue ((content.drop 4).take 4) = 2 ∧
        hdr.formatVersion = 2) := by
  refine ⟨?_, ?_, ?_⟩
  · intro hne hm
    have h := readHeader_bad_magic content hne hm
    exact ⟨h, main_of_parse_error content _ (parseArchive_of_header_error content _ h)⟩
  · intro hm hlen hv
    have h := readHeader_bad_version content hm hlen hv
    exact ⟨h, main_of_parse_error content _ (parseArchive_of_header_error content _ h)⟩
  · intro hdr p h
    obtain ⟨h1, _, h2, h3, _, _⟩ := readHeader_ok_inv content hdr p h
    exact ⟨h1, h2, h3⟩

set_option maxRecDepth 1000000 in
/-- C4 at concrete files: `XDPC` is rejected as an invalid header, `GDPC`
followed by version 3 as an unsupported version, and the header of the
152-byte scenario archive is accepted with version 2. -/
theorem header_validation_witness :
    main (ascii "XDPC") = Run.halt .invalidHeader ∧
    main (ascii "GDPC" ++ leBytes 4 3) = Run.halt .unsupportedVersion ∧
    leValue (((scenarioArchive 152).drop 4).take 4) = 2 :=
  ⟨((header_validation (ascii "XDPC")).1 (by decide) (by decide)).2,
   ((header_validation (ascii "GDPC" ++ leBytes 4 3)).2.1 (by decide) (by decide) (by decide)).2,
   ((header_validation (scenarioArchive 152)).2.2
      ⟨2, 4, 2, 0, 0, 152, 1⟩ 100 (by decide)).2.1⟩

/-! ## Destination paths -/

theorem destPath_of_prefix (rest : List Byte) :
    destPath (ascii "res://" ++ rest) = .ok (ascii "export/" ++ rest) := by
  have h6 : (ascii "res://").length = 6 := by decide
  have hl : ¬ (ascii "res://" ++ rest).length < 6 := by
    rw [List.length_append, h6]; omega
  have ht : (ascii "res://" ++ rest).take 6 = ascii "res://" := by
    rw [← h6, List.take_left]
  have hd : (ascii "res://" ++ rest).drop 6 = rest := by
    rw [← h6, List.drop_left]
  simp only [destPath, hl, if_false, ht, if_true, hd]

theorem destPath_of_not_prefix (path : List Byte) (h : 6 ≤ path.length)
    (hp : ¬ ascii "res://" <+: path) :
    destPath path = .ok (ascii "export/" ++ path) := by
  have hl : ¬ path.length < 6 := by omega
  have ht : path.take 6 ≠ ascii "res://" := by
    intro heq
    apply hp
    rw [← heq]
    exact List.take_prefix 6 path
  simp only [destPath, hl, if_false, ht]

theorem destPath_short (path : List Byte) (h : path.length < 6) :
    destPath path = .error .outOfRange := by
  simp only [destPath, h, if_true]

/-- C8: for a path of at least 6 bytes, the destination is `export/` followed
by the rest of the path when the path is `res://` followed by that rest (also
when the rest itself begins with `res://`), and `export/` followed by the
unchanged path when `res://` is not a prefix; the destination is where
`extractEntry` writes whenever it writes anything. -/
theorem destPath_normalises (path : List Byte) (h : 6 ≤ path.length) :
    (∀ rest, path = ascii "res://" ++ rest →
        destPath path = .ok (ascii "export/" ++ rest)) ∧
    (¬ ascii "res://" <+: path → destPath path = .ok (ascii "export/" ++ path)) ∧
    (∀ rest, path = ascii "res://" ++ (ascii "res://" ++ rest) →
        destPath path = .ok (ascii "export/" ++ (ascii "res://" ++ rest))) ∧
    (∃ dest, destPath path = .ok dest ∧
      ∀ content filesBase ofs size md5 encrypted,
        (extractEntry content filesBase ⟨path, ofs, size, md5, encrypted⟩).ops = [] ∨
        ∃ data tail, (extractEntry content filesBase ⟨path, ofs, size, md5, encrypted⟩).ops
          = mkdirOps dest ++ FsOp.writeFile dest data :: tail) := by
  refine ⟨?_, ?_, ?_, ?_⟩
  · rintro rest rfl
    exact destPath_of_prefix rest
  · exact destPath_of_not_prefix path h
  · rintro rest rfl
    exact destPath_of_prefix _
  · have hl : ¬ path.length < 6 := by omega
    refine ⟨_, by simp only [destPath, hl, if_false]; rfl, ?_⟩
    intro content filesBase ofs size md5 encrypted
    unfold extractEntry
    simp only
    split
    · left; rfl
    · split
      · left; rfl
      · split
        · left; rfl
        · rename_i data p heq
          right
          simp only [destPath, hl, if_false]
          refine ⟨data, (if (ascii ".ctex").isSuffixOf
              (ascii "export/" ++ if path.take 6 = ascii "res://" then path.drop 6 else path)
            then unpackImageResource
              (ascii "export/" ++ if path.take 6 = ascii "res://" then path.drop 6 else path) data
            else Run.done).ops, ?_⟩
          simp only [Run.andThen, List.append_assoc, List.singleton_append]

/-- C8 at `res://a.txt`: the destination is `export/a.txt`. -/
theorem destPath_normalises_witness :
    destPath (ascii "res://a.txt") = .ok (ascii "export/a.txt") :=
  (destPath_normalises (ascii "res://a.txt") (by decide)).1 (ascii "a.txt") (by decide)

set_option maxRecDepth 1000000 in
/-- C9 (the code panics): the record path `a.txt` has 5 bytes; the archive is
otherwise the scenario's, with `filesBase` 148 at the end of the directory and
payload `hello`.  The slice expression `f.path[:6]` panics with "slice bounds
out of range" after the payload was read and before anything is written. -/
theorem short_path_panics :
    parseArchive (oneEntryArchive 148 (ascii "a.txt") 0 5 (ascii "hello"))
        = .ok (⟨2, 4, 2, 0, 0, 148, 1⟩,
               [⟨ascii "a.txt", 0, 5, md5Sum (ascii "hello"), false⟩]) ∧
      destPath (ascii "a.txt") = .error .outOfRange ∧
      destPath [] = .error .outOfRange ∧
      main (oneEntryArchive 148 (ascii "a.txt") 0 5 (ascii "hello")) = Run.halt .outOfRange := by
  decide

/-! ## Extraction of one entry -/

theorem seekTarget_of_lt (filesBase : Nat) (f : File) (h : filesBase + f.ofs < 2 ^ 63) :
    seekTarget filesBase f = ((filesBase + f.ofs : Nat) : Int) := by
  have h1 : (f.ofs + filesBase) % 2 ^ 64 = filesBase + f.ofs := by
    rw [Nat.mod_eq_of_lt (by omega)]; omega
  unfold seekTarget toInt64
  rw [Nat.mod_mod, h1, if_pos h]

/-- What holds of a payload that one `Read` call delivers whole: when
`filesBase + ofs + size` is within the file (whose length fits `int64`) and
`size ≤ maxRW`, the seek goes to `filesBase + ofs`, the read returns exactly
the `size` archive bytes from there and leaves the cursor `size` further, and
the destination file is written with exactly those bytes. -/
theorem extractEntry_reads_payload (content : List Byte) (filesBase : Nat) (f : File)
    (hfile : content.length < 2 ^ 63) (h : filesBase + f.ofs + f.size ≤ content.length)
    (hsize : f.size ≤ maxRW) :
    seekTarget filesBase f = ((filesBase + f.ofs : Nat) : Int) ∧
    fileRead content (seekTarget filesBase f).toNat f.size
      = .ok ((content.drop (filesBase + f.ofs)).take f.size, filesBase + f.ofs + f.size) ∧
    ((content.drop (filesBase + f.ofs)).take f.size).length = f.size ∧
    (∀ dest, destPath f.path = .ok dest →
      (extractEntry content filesBase f).ops
        = mkdirOps dest
          ++ [FsOp.writeFile dest ((content.drop (filesBase + f.ofs)).take f.size)]
          ++ (if (ascii ".ctex").isSuffixOf dest
              then unpackImageResource dest ((content.drop (filesBase + f.ofs)).take f.size)
              else Run.done).ops) := by
  have hs := seekTarget_of_lt filesBase f (by omega)
  have hr : fileRead content (seekTarget filesBase f).toNat f.size
      = .ok ((content.drop (filesBase + f.ofs)).take f.size, filesBase + f.ofs + f.size) := by
    rw [hs, Int.toNat_ofNat]
    exact fileRead_of_le content _ _ h hsize
  refine ⟨hs, hr, ?_, ?_⟩
  · simp only [List.length_take, List.length_drop]; omega
  · intro dest hd
    have h1 : ¬ seekTarget filesBase f < 0 := by rw [hs]; omega
    have h2 : ¬ maxAlloc < f.size := by unfold maxAlloc; unfold maxRW at hsize; omega
    simp only [extractEntry, h1, h2, if_false, hr, hd, Run.andThen]

set_option maxRecDepth 1000000 in
/-- On the 152-byte scenario archive the five bytes written to `export/a.txt`
are the archive bytes 152..156. -/
theorem extractEntry_reads_payload_witness :
    (extractEntry (scenarioArchive 152) 152
        ⟨ascii "res://a.txt", 0, 5, md5Sum (ascii "hello"), false⟩).ops
      = mkdirOps (ascii "export/a.txt")
        ++ [FsOp.writeFile (ascii "export/a.txt") (((scenarioArchive 152).drop (152 + 0)).take 5)]
        ++ (if (ascii ".ctex").isSuffixOf (ascii "export/a.txt")
            then unpackImageResource (ascii "export/a.txt")
              (((scenarioArchive 152).drop (152 + 0)).take 5)
            else Run.done).ops :=
  (extractEntry_reads_payload (scenarioArchive 152) 152
      ⟨ascii "res://a.txt", 0, 5, md5Sum (ascii "hello"), false⟩
      (by decide) (by decide) (by decide)).2.2.2 (ascii "export/a.txt") (by decide)

set_option maxRecDepth 1000000 in
/-- C6 (the code does not abort): with a record size of 10 and only the five
bytes `hello` left in the file, `Read` returns 5 bytes and no error; `main`
writes `export/a.txt` with `hello` and five zero bytes and completes.  With
size 0 and a payload offset past the end of the file it writes an empty file
and completes. -/
theorem short_read_not_rejected :
    (oneEntryArchive 152 (ascii "res://a.txt") 0 10 (ascii "hello")).length = 157 ∧
    main (oneEntryArchive 152 (ascii "res://a.txt") 0 10 (ascii "hello"))
      = ⟨[FsOp.mkdirAll (ascii "export"),
          FsOp.writeFile (ascii "export/a.txt") (ascii "hello" ++ List.replicate 5 0)],
         [ascii "export/a.txt"], none⟩ ∧
    main (oneEntryArchive 1000 (ascii "res://a.txt") 0 0 [])
      = ⟨[FsOp.mkdirAll (ascii "export"), FsOp.writeFile (ascii "export/a.txt") []],
         [], none⟩ := by
  decide

/-! ## The digest check -/

theorem digitChar_inj : ∀ i j : Fin 16, Nat.digitChar i.val = Nat.digitChar j.val → i = j := by
  decide

theorem hexEncode_cons (b : Byte) (bs : List Byte) :
    hexEncode (b :: bs)
      = Nat.digitChar (b.val / 16) :: Nat.digitChar (b.val % 16) :: hexEncode bs := by
  simp [hexEncode]

theorem hexEncode_inj (a b : List Byte) (h : hexEncode a = hexEncode b) : a = b := by
  induction a generalizing b with
  | nil =>
    cases b with
    | nil => rfl
    | cons y b => simp [hexEncode_cons, hexEncode] at h
  | cons x a ih =>
    cases b with
    | nil => simp [hexEncode_cons, hexEncode] at h
    | cons y b =>
      simp only [hexEncode_cons, List.cons.injEq] at h
      obtain ⟨h1, h2, h3⟩ := h
      have hx := x.isLt
      have hy := y.isLt
      have e1 := digitChar_inj ⟨x.val / 16, by omega⟩ ⟨y.val / 16, by omega⟩ h1
      have e2 := digitChar_inj ⟨x.val % 16, by omega⟩ ⟨y.val % 16, by omega⟩ h2
      simp only [Fin.mk.injEq] at e1 e2
      have hxy : x = y := Fin.ext (by omega)
      rw [hxy, ih b h3]

theorem md5Warnings_eq (dest data md5 : List Byte) :
    md5Warnings dest data md5 = if getMD5Hash data ≠ md5 then [dest] else [] := by
  unfold md5Warnings
  by_cases h : getMD5Hash data = md5
  · simp [h]
  · have : hexEncode (getMD5Hash data) ≠ hexEncode md5 := fun he => h (hexEncode_inj _ _ he)
    simp [h, this]

theorem mipmapLoop_warnings (path data : List Byte) (n i base : Nat) :
    (mipmapLoop path data n i base).warnings = [] := by
  induction n generalizing i base with
  | zero => rfl
  | succ n ih =>
    unfold mipmapLoop
    split
    · rfl
    · split
      · rfl
      · split
        · rfl
        · simp [Run.andThen, ih]

theorem unpackImageResource_warnings (path data : List Byte) :
    (unpackImageResource path data).warnings = [] := by
  unfold unpackImageResource
  repeat (first | rfl | exact mipmapLoop_warnings _ _ _ _ _ | split)

theorem fileRead_congr_of_take (c1 c2 : List Byte) (pos n : Nat)
    (hlen : c1.length = c2.length)
    (h : (c1.drop pos).take n = (c2.drop pos).take n) :
    fileRead c1 pos n = fileRead c2 pos n := by
  have e : ∀ l : List Byte, l.take (min n maxRW) = (l.take n).take (min n maxRW) := by
    intro l
    rw [List.take_take]
    congr 1
    omega
  have h1 : (c1.drop pos).take (min n maxRW) = (c2.drop pos).take (min n maxRW) := by
    rw [e (c1.drop pos), e (c2.drop pos), h]
  simp only [fileRead, h1, hlen]

theorem extractEntry_congr (c1 c2 : List Byte) (filesBase : Nat) (f g : File)
    (hfg : sameButDigest f g)
    (hread : ¬ seekTarget filesBase f < 0 →
      fileRead c1 (seekTarget filesBase f).toNat f.size
        = fileRead c2 (seekTarget filesBase f).toNat f.size) :
    (extractEntry c1 filesBase f).ops = (extractEntry c2 filesBase g).ops ∧
      (extractEntry c1 filesBase f).err = (extractEntry c2 filesBase g).err := by
  obtain ⟨p1, o1, s1, m1, e1⟩ := f
  obtain ⟨p2, o2, s2, m2, e2⟩ := g
  obtain ⟨h1, h2, h3, h4⟩ := hfg
  simp only at h1 h2 h3 h4
  subst h1 h2 h3 h4
  have hst : seekTarget filesBase ⟨p1, o1, s1, m2, e1⟩ = seekTarget filesBase ⟨p1, o1, s1, m1, e1⟩ :=
    rfl
  by_cases hneg : seekTarget filesBase ⟨p1, o1, s1, m1, e1⟩ < 0
  · simp only [extractEntry, hst, hneg, if_true, and_self]
  · have hr := hread hneg
    unfold extractEntry
    simp only [hst] at hr ⊢
    rw [hr]
    split
    · exact ⟨rfl, rfl⟩
    · split
      · exact ⟨rfl, rfl⟩
      · split
        · exact ⟨rfl, rfl⟩
        · split
          · exact ⟨rfl, rfl⟩
          · exact ⟨rfl, rfl⟩

theorem extractLoop_congr (c1 c2 : List Byte) (filesBase : Nat) (fs gs : List File)
    (hfg : List.Forall₂ sameButDigest fs gs)
    (hread : ∀ f ∈ fs, ¬ seekTarget filesBase f < 0 →
      fileRead c1 (seekTarget filesBase f).toNat f.size
        = fileRead c2 (seekTarget filesBase f).toNat f.size) :
    (extractLoop c1 filesBase fs).ops = (extractLoop c2 filesBase gs).ops ∧
      (extractLoop c1 filesBase fs).err = (extractLoop c2 filesBase gs).err := by
  induction hfg with
  | nil => exact ⟨rfl, rfl⟩
  | @cons f g fs gs hab _ ih =>
    obtain ⟨i1, i2⟩ := ih (fun x hx => hread x (List.mem_cons_of_mem _ hx))
    obtain ⟨j1, j2⟩ := extractEntry_congr c1 c2 filesBase f g hab (hread f (List.mem_cons_self _ _))
    simp only [extractLoop, Run.andThen]
    rw [← j2]
    cases hE : (extractEntry c1 filesBase f).err with
    | some e => simp only [j1, j2, hE, and_self]
    | none => simp only [j1, i1, i2, and_self]

/-- C7 (amended): in an iteration whose seek, allocation, read and path
normalisation succeed, the warning is printed exactly when the MD5 of the
buffer read differs from the stored digest, and the destination file is
written with that buffer either way.  Two archives of the same length that
parse to the same `filesBase` and to records equal up to the stored digests,
and that hold the same bytes in every payload range, give the same file-system
calls and the same panic or completion. -/
theorem digest_mismatch_only_warns (c1 c2 : List Byte) (h1 h2 : Header) (fs gs : List File)
    (hp1 : parseArchive c1 = .ok (h1, fs)) (hp2 : parseArchive c2 = .ok (h2, gs))
    (hbase : h1.filesBase = h2.filesBase) (hfg : List.Forall₂ sameButDigest fs gs)
    (hlen : c1.length = c2.length)
    (hpay : ∀ f ∈ fs, ¬ seekTarget h1.filesBase f < 0 →
      (c1.drop (seekTarget h1.filesBase f).toNat).take f.size
        = (c2.drop (seekTarget h1.filesBase f).toNat).take f.size) :
    (∀ f data p dest, ¬ seekTarget h1.filesBase f < 0 → f.size ≤ maxAlloc →
        fileRead c1 (seekTarget h1.filesBase f).toNat f.size = .ok (data, p) →
        destPath f.path = .ok dest →
        ((extractEntry c1 h1.filesBase f).warnings = [dest] ↔ getMD5Hash data ≠ f.md5) ∧
        ((extractEntry c1 h1.filesBase f).warnings = [] ↔ getMD5Hash data = f.md5) ∧
        FsOp.writeFile dest data ∈ (extractEntry c1 h1.filesBase f).ops) ∧
    (main c1).ops = (main c2).ops ∧ (main c1).err = (main c2).err := by
  refine ⟨?_, ?_⟩
  · intro f data p dest hs hsz hr hd
    have hsz2 : ¬ maxAlloc < f.size := by omega
    have hw : (extractEntry c1 h1.filesBase f).warnings
        = if getMD5Hash data ≠ f.md5 then [dest] else [] := by
      have htail : (if (ascii ".ctex").isSuffixOf dest then unpackImageResource dest data
          else Run.done).warnings = [] := by
        split
        · exact unpackImageResource_warnings _ _
        · rfl
      simp only [extractEntry, hs, hsz2, if_false, hr, hd, Run.andThen, htail,
        List.append_nil]
      exact md5Warnings_eq _ _ _
    have ho : FsOp.writeFile dest data ∈ (extractEntry c1 h1.filesBase f).ops := by
      simp only [extractEntry, hs, hsz2, if_false, hr, hd, Run.andThen]
      simp
    rw [hw]
    by_cases hm : getMD5Hash data = f.md5
    · simp [hm, ho]
    · simp [hm, ho]
  · have := extractLoop_congr c1 c2 h1.filesBase fs gs hfg
      (fun f hf hneg => fileRead_congr_of_take c1 c2 _ _ hlen (hpay f hf hneg))
    simp only [main, hp1, hp2, ← hbase]
    exact this

set_option maxRecDepth 1000000 in
/-- C7 (amended) on the 152-byte scenario archive and its copy with an
all-zero stored digest: same file-system calls, same completion, and only the
copy warns. -/
theorem digest_mismatch_only_warns_witness :
    ((main (scenarioArchive 152)).ops
        = (main (layoutArchive 2 4 2 0 0 152 (List.replicate 16 0)
            [⟨ascii "res://a.txt", 0, 5, List.replicate 16 0, 0⟩] ++ ascii "hello")).ops ∧
      (main (scenarioArchive 152)).err
        = (main (layoutArchive 2 4 2 0 0 152 (List.replicate 16 0)
            [⟨ascii "res://a.txt", 0, 5, List.replicate 16 0, 0⟩] ++ ascii "hello")).err) ∧
    (main (layoutArchive 2 4 2 0 0 152 (List.replicate 16 0)
        [⟨ascii "res://a.txt", 0, 5, List.replicate 16 0, 0⟩] ++ ascii "hello")).warnings
      = [ascii "export/a.txt"] :=
  ⟨(digest_mismatch_only_warns (scenarioArchive 152)
      (layoutArchive 2 4 2 0 0 152 (List.replicate 16 0)
        [⟨ascii "res://a.txt", 0, 5, List.replicate 16 0, 0⟩] ++ ascii "hello")
      ⟨2, 4, 2, 0, 0, 152, 1⟩ ⟨2, 4, 2, 0, 0, 152, 1⟩
      [⟨ascii "res://a.txt", 0, 5, md5Sum (ascii "hello"), false⟩]
      [⟨ascii "res://a.txt", 0, 5, List.replicate 16 0, false⟩]
      (by decide) (by decide) rfl
      (List.Forall₂.cons ⟨rfl, rfl, rfl, rfl⟩ List.Forall₂.nil)
      (by decide)
      (by
        intro f hf _
        rw [List.mem_singleton] at hf
        subst hf
        decide)).2,
   by decide⟩

/-! ## Compiled-texture decoder -/

theorem index_of_drop (data tl : List Byte) (i k : Nat) (b : Byte) (xs : List Byte)
    (h : data.drop i = xs ++ b :: tl) (hk : xs.length = k) : index data (i + k) = .ok b := by
  have : data[i + k]? = some b := by
    rw [← List.getElem?_drop, h, ← hk, List.getElem?_append_right (le_refl _)]
    simp
  simp only [index, this]

theorem int32At_cons (data tl : List Byte) (i : Nat) (b0 b1 b2 b3 : Byte)
    (h : data.drop i = b0 :: b1 :: b2 :: b3 :: tl) :
    int32At data i = .ok (b0.val + 256 * b1.val + 65536 * b2.val + 16777216 * b3.val) := by
  have h0 := index_of_drop data (b1 :: b2 :: b3 :: tl) i 0 b0 [] h rfl
  have h1 := index_of_drop data (b2 :: b3 :: tl) i 1 b1 [b0] h rfl
  have h2 := index_of_drop data (b3 :: tl) i 2 b2 [b0, b1] h rfl
  have h3 := index_of_drop data tl i 3 b3 [b0, b1, b2] h rfl
  simp only [Nat.add_zero] at h0
  have l0 := b0.isLt
  have l1 := b1.isLt
  have l2 := b2.isLt
  have l3 := b3.isLt
  simp only [int32At, h0, h1, h2, h3, bind, Except.bind, pure, Except.pure]
  rw [or_shiftLeft_of_lt _ _ 8 (by omega), or_shiftLeft_of_lt _ _ 16 (by omega),
    or_shiftLeft_of_lt _ _ 24 (by omega)]
  norm_num

theorem int32At_of_drop (data tl : List Byte) (i v : Nat) (hv : v < 2 ^ 32)
    (h : data.drop i = leBytes 4 v ++ tl) : int32At data i = .ok v := by
  simp only [leBytes, List.cons_append, List.nil_append] at h
  rw [int32At_cons data tl i _ _ _ _ h]
  simp only [byte_ofNat_val]
  congr 1
  omega

theorem int32At_of_le (data : List Byte) (i : Nat) (h : i + 4 ≤ data.length) :
    int32At data i = .ok (leValue ((data.drop i).take 4)) := by
  have hlen : ((data.drop i).take 4).length = 4 := by
    simp [List.length_take, List.length_drop]; omega
  apply int32At_of_drop data ((data.drop i).drop 4)
  · have := leValue_lt ((data.drop i).take 4)
    rw [hlen] at this
    omega
  · have := leBytes_leValue ((data.drop i).take 4)
    rw [hlen] at this
    rw [this, List.take_append_drop]

theorem isGST2_of_take (data : List Byte) (h : data.take 4 = ascii "GST2") :
    isGST2 data = .ok true := by
  have hg : ascii "GST2" = [0x47, 0x53, 0x54, 0x32] := by decide
  rw [hg] at h
  rcases data with _ | ⟨a, _ | ⟨b, _ | ⟨c, _ | ⟨d, t⟩⟩⟩⟩
  · simp at h
  · simp at h
  · simp at h
  · simp at h
  · simp only [List.take_succ_cons, List.take_zero, List.cons.injEq, and_true] at h
    obtain ⟨rfl, rfl, rfl, rfl⟩ := h
    simp [isGST2, index, bind, Except.bind, pure, Except.pure]

theorem mipmapRecords_cons (d : List Byte) (ds : List (List Byte)) :
    mipmapRecords (d :: ds) = leBytes 4 d.length ++ (d ++ mipmapRecords ds) := by
  simp [mipmapRecords]

/-- The loop on a buffer that holds the records of `ds` from `base` on: one
write per record, after which the loop stands at the end of the records with
`m` iterations left. -/
theorem mipmapLoop_records (path data post : List Byte) (m : Nat) (ds : List (List Byte)) :
    ∀ (i base : Nat), data.drop base = mipmapRecords ds ++ post →
      (∀ d ∈ ds, d.length < 2 ^ 32) →
      mipmapLoop path data (ds.length + m) i base
        = Run.andThen ⟨mipmapWrites path i ds, [], none⟩
            (mipmapLoop path data m (i + ds.length)
              (base + (ds.map (fun d => 4 + d.length)).sum)) := by
  induction ds with
  | nil =>
    intro i base _ _
    simp [Run.andThen, mipmapWrites]
  | cons d ds ih =>
    intro i base hdrop hlt
    have hd : d.length < 2 ^ 32 := hlt d (List.mem_cons_self _ _)
    rw [mipmapRecords_cons, List.append_assoc, List.append_assoc] at hdrop
    have hsize := int32At_of_drop data _ base d.length hd hdrop
    have hdrop1 := drop_add_of_drop data _ _ base hdrop
    rw [leBytes_length] at hdrop1
    have hdrop2 := drop_add_of_drop data _ _ (base + 4) hdrop1
    have hlen : base + 4 + d.length ≤ data.length := by
      have := congrArg List.length hdrop
      simp only [List.length_drop, List.length_append, leBytes_length] at this
      omega
    have h1 : ¬ base + 4 > data.length := by omega
    have h2 : ¬ base + 4 + d.length > data.length := by omega
    have hpay : (data.drop (base + 4)).take d.length = d := by
      rw [hdrop1, List.take_left]
    have hrec := ih (i + 1) (base + 4 + d.length) hdrop2
      (fun x hx => hlt x (List.mem_cons_of_mem _ hx))
    have hn : (d :: ds).length + m = (ds.length + m) + 1 := by
      simp only [List.length_cons]; omega
    rw [hn]
    simp only [mipmapLoop, h1, if_false, hsize, h2, hpay, hrec, mipmapWrites]
    simp only [Run.andThen, List.map_cons, List.sum_cons, List.length_cons,
      List.singleton_append, List.cons_append, List.nil_append]
    have e1 : i + 1 + ds.length = i + (ds.length + 1) := by omega
    have e2 : base + 4 + d.length + (ds.map (fun d => 4 + d.length)).sum
        = base + (4 + d.length + (ds.map (fun d => 4 + d.length)).sum) := by omega
    rw [e1, e2]
theorem mipmapWrites_length (path : List Byte) (i : Nat) (ds : List (List Byte)) :
    (mipmapWrites path i ds).length = ds.length := by
  induction ds generalizing i with
  | nil => rfl
  | cons d ds ih => simp [mipmapWrites, ih]

theorem mipmapWrites_getElem? (path : List Byte) (ds : List (List Byte)) :
    ∀ (i0 i : Nat) (d : List Byte), ds[i]? = some d →
      (mipmapWrites path i0 ds)[i]? = some (FsOp.writeFile (mipmapName path (i0 + i)) d) := by
  induction ds with
  | nil => intro i0 i d h; simp at h
  | cons x ds ih =>
    intro i0 i d h
    cases i with
    | zero =>
      simp only [List.getElem?_cons_zero, Option.some.injEq] at h
      simp [mipmapWrites, h]
    | succ i =>
      simp only [List.getElem?_cons_succ] at h
      have := ih (i0 + 1) i d h
      simp only [mipmapWrites, List.getElem?_cons_succ, this]
      congr 3
      omega

theorem mipmapLoop_split (path data : List Byte) (ds1 ds2 : List (List Byte))
    (base : Nat) (hdrop : data.drop base = mipmapRecords (ds1 ++ ds2))
    (hds : ∀ d ∈ ds1 ++ ds2, d.length < 2 ^ 32) :
    mipmapLoop path data (ds1 ++ ds2).length 0 base
      = Run.andThen ⟨mipmapWrites path 0 ds1, [], none⟩
          (mipmapLoop path data ds2.length ds1.length
            (base + (ds1.map (fun d => 4 + d.length)).sum)) := by
  have h1 : data.drop base = mipmapRecords ds1 ++ mipmapRecords ds2 := by
    rw [hdrop]; simp [mipmapRecords]
  have := mipmapLoop_records path data (mipmapRecords ds2) ds2.length ds1 0 base h1
    (fun d hd => hds d (List.mem_append_left _ hd))
  rw [List.length_append, this, Nat.zero_add]

/-- C10: on a buffer made of a 52-byte header with signature `GST2`, version 1
and the count `N` at offset 36, followed by the `N` records `le32(|d_i|) ++
d_i`, the decoder does not panic and its file-system calls are exactly the `N`
writes of `d_i` to `path_i`, in order; after the records of any initial part
of the list the loop stands `4 + |d_i|` further per record. -/
theorem unpackImageResource_wellformed (path header : List Byte) (ds : List (List Byte))
    (hlen : header.length = 52) (hsig : header.take 4 = ascii "GST2")
    (hver : leValue ((header.drop 4).take 4) = 1)
    (hcnt : leValue ((header.drop 36).take 4) = ds.length)
    (hds : ∀ d ∈ ds, d.length < 2 ^ 32) :
    unpackImageResource path (header ++ mipmapRecords ds)
        = ⟨mipmapWrites path 0 ds, [], none⟩ ∧
      (mipmapWrites path 0 ds).length = ds.length ∧
      (∀ i d, ds[i]? = some d →
        (mipmapWrites path 0 ds)[i]? = some (FsOp.writeFile (mipmapName path i) d)) ∧
      (∀ ds1 ds2, ds = ds1 ++ ds2 →
        mipmapLoop path (header ++ mipmapRecords ds) ds.length 0 0x34
          = Run.andThen ⟨mipmapWrites path 0 ds1, [], none⟩
              (mipmapLoop path (header ++ mipmapRecords ds) ds2.length ds1.length
                (0x34 + (ds1.map (fun d => 4 + d.length)).sum))) := by
  have hdrop : (header ++ mipmapRecords ds).drop 52 = mipmapRecords ds := by
    rw [← hlen, List.drop_left]
  have hsplit : ∀ ds1 ds2, ds = ds1 ++ ds2 →
      mipmapLoop path (header ++ mipmapRecords ds) ds.length 0 0x34
        = Run.andThen ⟨mipmapWrites path 0 ds1, [], none⟩
            (mipmapLoop path (header ++ mipmapRecords ds) ds2.length ds1.length
              (0x34 + (ds1.map (fun d => 4 + d.length)).sum)) := by
    intro ds1 ds2 he
    subst he
    exact mipmapLoop_split path _ ds1 ds2 52 hdrop hds
  refine ⟨?_, mipmapWrites_length path 0 ds, ?_, hsplit⟩
  · have hL : 52 ≤ (header ++ mipmapRecords ds).length := by
      rw [List.length_append]; omega
    have hg : isGST2 (header ++ mipmapRecords ds) = .ok true := by
      apply isGST2_of_take
      rw [List.take_append_of_le_length (by omega)]
      exact hsig
    have hslice : ∀ k, k + 4 ≤ 52 →
        ((header ++ mipmapRecords ds).drop k).take 4 = (header.drop k).take 4 := by
      intro k hk
      rw [List.drop_append_of_le_length (by omega), List.take_append_of_le_length]
      rw [List.length_drop]; omega
    have hv := int32At_of_le (header ++ mipmapRecords ds) 4 (by omega)
    have hw := int32At_of_le (header ++ mipmapRecords ds) 8 (by omega)
    have hh := int32At_of_le (header ++ mipmapRecords ds) 12 (by omega)
    have hm := int32At_of_le (header ++ mipmapRecords ds) 36 (by omega)
    rw [hslice 4 (by omega), hver] at hv
    rw [hslice 36 (by omega), hcnt] at hm
    have hloop := hsplit ds [] (by simp)
    simp only [List.length_nil, mipmapLoop] at hloop
    simp only [unpackImageResource, hg, hv, hw, hh, hm, ne_eq, not_true_eq_false, if_false,
      hloop, Run.andThen, Run.done, List.append_nil]
  · intro i d h
    have := mipmapWrites_getElem? path ds 0 i d h
    rw [Nat.zero_add] at this
    exact this

set_option maxRecDepth 1000000 in
/-- C10 on a container with two mipmaps, `ab` and `c`: two writes, to
`t.ctex_0` and `t.ctex_1`. -/
theorem unpackImageResource_wellformed_witness :
    unpackImageResource (ascii "t.ctex")
        ((ascii "GST2" ++ leBytes 4 1 ++ List.replicate 28 0 ++ leBytes 4 2
            ++ List.replicate 12 0) ++ mipmapRecords [ascii "ab", ascii "c"])
      = ⟨mipmapWrites (ascii "t.ctex") 0 [ascii "ab", ascii "c"], [], none⟩ ∧
    mipmapWrites (ascii "t.ctex") 0 [ascii "ab", ascii "c"]
      = [FsOp.writeFile (ascii "t.ctex_0") (ascii "ab"),
         FsOp.writeFile (ascii "t.ctex_1") (ascii "c")] :=
  ⟨(unpackImageResource_wellformed (ascii "t.ctex")
      (ascii "GST2" ++ leBytes 4 1 ++ List.replicate 28 0 ++ leBytes 4 2
        ++ List.replicate 12 0)
      [ascii "ab", ascii "c"] (by decide) (by decide) (by decide) (by decide)
      (by decide)).1,
   by decide⟩

/-! ## Parsing an archive in the specification's layout -/

theorem padding_skip (n p : Nat) :
    (if 4 - n % 4 ≠ 4 then p + (4 - n % 4) else p) = p + padLen n := by
  unfold padLen
  split <;> omega

theorem dropWhile_nul_of_not_mem (l : List Byte) (h : (0 : Byte) ∉ l) :
    l.dropWhile (fun b => b = 0) = l := by
  cases l with
  | nil => rfl
  | cons b t =>
    have hb : b ≠ 0 := fun hb => h (by simp [hb])
    simp [List.dropWhile, hb]

theorem trimNul_of_not_mem (path : List Byte) (h : (0 : Byte) ∉ path) :
    trimNul path = path := by
  unfold trimNul
  rw [dropWhile_nul_of_not_mem path h,
    dropWhile_nul_of_not_mem path.reverse (by simpa using h), List.reverse_reverse]

theorem layoutRecord_length (r : Record) (hmd5 : r.md5.length = 16) :
    (layoutRecord r).length = 4 + r.path.length + padLen r.path.length + 8 + 8 + 16 + 4 := by
  simp only [layoutRecord, List.length_append, leBytes_length, List.length_replicate, hmd5]

/-- Reading one record laid out at the cursor. -/
theorem readEntry_layout (content tl : List Byte) (pos : Nat) (r : Record)
    (hpath : r.path.length ≤ maxRW) (hofs : r.ofs < 2 ^ 64) (hsize : r.size < 2 ^ 64)
    (hmd5 : r.md5.length = 16) (hflags : r.flags < 2 ^ 32)
    (h : content.drop pos = layoutRecord r ++ tl) :
    readEntry content pos
        = (if r.flags ≠ 0 then .error .unsupportedFileFlags
           else .ok (⟨trimNul r.path, r.ofs, r.size, r.md5, false⟩,
                     pos + (layoutRecord r).length)) ∧
      content.drop (pos + (layoutRecord r).length) = tl := by
  have hL := layoutRecord_length r hmd5
  have hend := drop_add_of_drop content _ _ pos h
  refine ⟨?_, hend⟩
  unfold layoutRecord at h
  simp only [List.append_assoc] at h
  have s1 := readUint32_of_drop content _ pos r.path.length
    (by unfold maxRW at hpath; omega) h
  have d1 := drop_add_of_drop content _ _ pos h
  rw [leBytes_length] at d1
  have s2 := fileRead_of_drop content r.path _ (pos + 4) d1 hpath
  have d2 := drop_add_of_drop content _ _ (pos + 4) d1
  have d3 := drop_add_of_drop content _ _ (pos + 4 + r.path.length) d2
  rw [List.length_replicate] at d3
  have s4 := readUint64_of_drop content _ _ r.ofs hofs d3
  have d4 := drop_add_of_drop content _ _ _ d3
  rw [leBytes_length] at d4
  have s5 := readUint64_of_drop content _ _ r.size hsize d4
  have d5 := drop_add_of_drop content _ _ _ d4
  rw [leBytes_length] at d5
  have s6 := fileRead_of_drop content r.md5 _ _ d5 (le_maxRW_of_le _ (by omega))
  have d6 := drop_add_of_drop content _ _ _ d5
  rw [hmd5] at s6 d6
  have s7 := readUint32_of_drop content _ _ r.flags hflags d6
  simp only [readEntry, s1, s2, padding_skip, s4, s5, s6, s7, bind, Except.bind, pure,
    Except.pure]
  by_cases hf : r.flags = 0
  · have e : pos + 4 + r.path.length + padLen r.path.length + 8 + 8 + 16 + 4
        = pos + (4 + r.path.length + padLen r.path.length + 8 + 8 + 16 + 4) := by omega
    simp [hf, hL, PackFileEncrypted, e]
  · simp only [hf, ne_eq, not_false_eq_true, if_true, throw, throwThe, MonadExceptOf.throw]

theorem readEntry_layout_fits (content tl : List Byte) (pos : Nat) (r : Record)
    (hr : r.fits) (h : content.drop pos = layoutRecord r ++ tl) :
    readEntry content pos
        = (if r.flags ≠ 0 then .error .unsupportedFileFlags
           else .ok (⟨trimNul r.path, r.ofs, r.size, r.md5, false⟩,
                     pos + (layoutRecord r).length)) ∧
      content.drop (pos + (layoutRecord r).length) = tl :=
  readEntry_layout content tl pos r hr.1 hr.2.1 hr.2.2.1 hr.2.2.2.1 hr.2.2.2.2 h

/-- The directory loop over records laid out at the cursor, all with flags 0. -/
theorem readEntries_layout (content tl : List Byte) (records : List Record) :
    ∀ pos, content.drop pos = records.flatMap layoutRecord ++ tl →
      (∀ r ∈ records, r.fits) → (∀ r ∈ records, r.flags = 0) →
      readEntries content records.length pos
        = .ok (records.map (fun r => ⟨trimNul r.path, r.ofs, r.size, r.md5, false⟩),
               pos + (records.flatMap layoutRecord).length) := by
  induction records with
  | nil => intro pos _ _ _; rfl
  | cons r rs ih =>
    intro pos h hfit hzero
    rw [List.flatMap_cons, List.append_assoc] at h
    obtain ⟨e1, d1⟩ := readEntry_layout_fits content _ pos r (hfit r (List.mem_cons_self _ _)) h
    have hz : r.flags = 0 := hzero r (List.mem_cons_self _ _)
    simp only [hz, ne_eq, not_true_eq_false, if_false] at e1
    have e2 := ih _ d1 (fun x hx => hfit x (List.mem_cons_of_mem _ hx))
      (fun x hx => hzero x (List.mem_cons_of_mem _ hx))
    simp only [List.length_cons, readEntries, e1, e2, List.map_cons, List.flatMap_cons,
      List.length_append, Nat.add_assoc]

/-- The directory loop stops with "Unsupported file flags" at the first record
whose flags are not 0. -/
theorem readEntries_bad_flags (content tl : List Byte) (records : List Record) :
    ∀ pos, content.drop pos = records.flatMap layoutRecord ++ tl →
      (∀ r ∈ records, r.fits) → (∃ r ∈ records, r.flags ≠ 0) →
      readEntries content records.length pos = .error .unsupportedFileFlags := by
  induction records with
  | nil => intro pos _ _ h; simp at h
  | cons r rs ih =>
    intro pos h hfit hbad
    rw [List.flatMap_cons, List.append_assoc] at h
    obtain ⟨e1, d1⟩ := readEntry_layout_fits content _ pos r (hfit r (List.mem_cons_self _ _)) h
    by_cases hz : r.flags = 0
    · simp only [hz, ne_eq, not_true_eq_false, if_false] at e1
      have hbad2 : ∃ x ∈ rs, x.flags ≠ 0 := by
        obtain ⟨x, hx, hxf⟩ := hbad
        rcases List.mem_cons.mp hx with rfl | hx
        · exact absurd hz hxf
        · exact ⟨x, hx, hxf⟩
      have e2 := ih _ d1 (fun x hx => hfit x (List.mem_cons_of_mem _ hx)) hbad2
      simp only [List.length_cons, readEntries, e1, e2]
    · simp only [hz, ne_eq, not_false_eq_true, if_true] at e1
      simp only [List.length_cons, readEntries, e1]

theorem skipReserved_of_drop (content tl : List Byte) (ws : List Nat) :
    ∀ pos, content.drop pos = ws.flatMap (leBytes 4) ++ tl →
      skipReserved content ws.length pos = .ok (pos + 4 * ws.length) ∧
        content.drop (pos + 4 * ws.length) = tl := by
  induction ws with
  | nil => intro pos h; exact ⟨rfl, by simpa using h⟩
  | cons w ws ih =>
    intro pos h
    rw [List.flatMap_cons, List.append_assoc] at h
    have hle : pos + 4 ≤ content.length := by
      have := congrArg List.length h
      simp only [List.length_drop, List.length_append, leBytes_length] at this
      omega
    have e1 := readUint32_of_le content pos hle
    have d1 := drop_add_of_drop content _ _ pos h
    rw [leBytes_length] at d1
    obtain ⟨e2, d2⟩ := ih _ d1
    have e : pos + 4 + 4 * ws.length = pos + 4 * (ws.length + 1) := by omega
    rw [e] at e2 d2
    simp only [List.length_cons, skipReserved, e1, e2, d2, and_self]

/-- The header of an archive in the specification's layout. -/
theorem readHeader_layout (major minor patch flags filesBase : Nat) (reserved : List Nat)
    (records : List Record) (rest : List Byte)
    (hmajor : major < 2 ^ 32) (hminor : minor < 2 ^ 32) (hpatch : patch < 2 ^ 32)
    (hflags : flags < 2 ^ 32) (hbase : filesBase < 2 ^ 64) (hres : reserved.length = 16)
    (hcount : records.length < 2 ^ 32) :
    readHeader (layoutArchive 2 major minor patch flags filesBase reserved records ++ rest)
        = (if flags ≠ 0 then .error .unsupportedFlags
           else .ok (⟨2, major, minor, patch, 0, filesBase, records.length⟩, 100)) ∧
      (layoutArchive 2 major minor patch flags filesBase reserved records ++ rest).drop 100
        = records.flatMap layoutRecord ++ rest := by
  generalize hc : layoutArchive 2 major minor patch flags filesBase reserved records ++ rest
    = content
  have h0 : content.drop 0 = MAGIC ++ (leBytes 4 2 ++ (leBytes 4 major ++ (leBytes 4 minor
      ++ (leBytes 4 patch ++ (leBytes 4 flags ++ (leBytes 8 filesBase
      ++ (reserved.flatMap (leBytes 4) ++ (leBytes 4 records.length
      ++ (records.flatMap layoutRecord ++ rest))))))))) := by
    rw [← hc]
    simp only [layoutArchive, MAGIC, List.drop_zero, List.append_assoc]
  have hm : MAGIC.length = 4 := by decide
  have s0 := fileRead_of_drop content MAGIC _ 0 h0 (le_maxRW_of_le _ (by rw [hm]; omega))
  have d0 := drop_add_of_drop content _ _ 0 h0
  rw [hm] at s0 d0
  simp only [Nat.zero_add] at s0 d0
  have s1 := readUint32_of_drop content _ 4 2 (by norm_num) d0
  have d1 := drop_add_of_drop content _ _ 4 d0
  rw [leBytes_length] at d1
  have s2 := readUint32_of_drop content _ _ major hmajor d1
  have d2 := drop_add_of_drop content _ _ _ d1
  rw [leBytes_length] at d2
  have s3 := readUint32_of_drop content _ _ minor hminor d2
  have d3 := drop_add_of_drop content _ _ _ d2
  rw [leBytes_length] at d3
  have s4 := readUint32_of_drop content _ _ patch hpatch d3
  have d4 := drop_add_of_drop content _ _ _ d3
  rw [leBytes_length] at d4
  have s5 := readUint32_of_drop content _ _ flags hflags d4
  have d5 := drop_add_of_drop content _ _ _ d4
  rw [leBytes_length] at d5
  have s6 := readUint64_of_drop content _ _ filesBase hbase d5
  have d6 := drop_add_of_drop content _ _ _ d5
  rw [leBytes_length] at d6
  obtain ⟨s7, d7⟩ := skipReserved_of_drop content _ reserved _ d6
  rw [hres] at s7 d7
  have s8 := readUint32_of_drop content _ _ records.length hcount d7
  have d8 := drop_add_of_drop content _ _ _ d7
  rw [leBytes_length] at d8
  refine ⟨?_, d8⟩
  by_cases hf : flags = 0
  · subst hf
    simp [readHeader, s0, s1, s2, s3, s4, s5, s6, s7, s8, bind, Except.bind, pure, Except.pure]
  · simp [readHeader, s0, s1, s2, s3, s4, s5, hf, bind, Except.bind, pure, Except.pure,
      throw, throwThe, MonadExceptOf.throw]

/-- C2 (amended): parsing undoes the specification's layout for paths that
one `Read` call delivers.  For an engine triple, `filesBase`, 16 reserved words
and fewer than 2^32 records whose paths have at most 2^30 bytes and no NUL
byte, whose other fields fit their widths and whose flags are 0, header and
directory parsing of `main` on the laid-out bytes (followed by anything)
returns version 2, the engine triple, flags 0, `filesBase`, the record count
and the records in order, field by field. -/
theorem parse_layout_roundtrip (major minor patch filesBase : Nat) (reserved : List Nat)
    (records : List Record) (rest : List Byte)
    (hmajor : major < 2 ^ 32) (hminor : minor < 2 ^ 32) (hpatch : patch < 2 ^ 32)
    (hbase : filesBase < 2 ^ 64) (hres : reserved.length = 16)
    (hcount : records.length < 2 ^ 32) (hfit : ∀ r ∈ records, r.fits)
    (hnul : ∀ r ∈ records, (0 : Byte) ∉ r.path) (hzero : ∀ r ∈ records, r.flags = 0) :
    parseArchive (layoutArchive 2 major minor patch 0 filesBase reserved records ++ rest)
      = .ok (⟨2, major, minor, patch, 0, filesBase, records.length⟩,
             records.map Record.toFile) := by
  obtain ⟨e1, d1⟩ := readHeader_layout major minor patch 0 filesBase reserved records rest
    hmajor hminor hpatch (by norm_num) hbase hres hcount
  simp only [ne_eq, not_true_eq_false, if_false] at e1
  have e2 := readEntries_layout _ rest records 100 d1 hfit hzero
  have hmap : records.map (fun r => (⟨trimNul r.path, r.ofs, r.size, r.md5, false⟩ : File))
      = records.map Record.toFile := by
    apply List.map_congr_left
    intro r hr
    simp only [Record.toFile, trimNul_of_not_mem r.path (hnul r hr)]
  rw [hmap] at e2
  simp only [parseArchive, e1, e2]

set_option maxRecDepth 1000000 in
/-- C2 (amended) on the 152-byte scenario archive. -/
theorem parse_layout_roundtrip_witness :
    parseArchive (layoutArchive 2 4 2 0 0 152 (List.replicate 16 0)
        [⟨ascii "res://a.txt", 0, 5, md5Sum (ascii "hello"), 0⟩] ++ ascii "hello")
      = .ok (⟨2, 4, 2, 0, 0, 152, 1⟩,
             [⟨ascii "res://a.txt", 0, 5, md5Sum (ascii "hello"), false⟩]) :=
  parse_layout_roundtrip 4 2 0 152 (List.replicate 16 0)
    [⟨ascii "res://a.txt", 0, 5, md5Sum (ascii "hello"), 0⟩] (ascii "hello")
    (by decide) (by decide) (by decide) (by decide) (by decide) (by decide)
    (by
      intro r hr
      rw [List.mem_singleton] at hr
      subst hr
      unfold Record.fits
      decide)
    (by
      intro r hr
      rw [List.mem_singleton] at hr
      subst hr
      decide)
    (by
      intro r hr
      rw [List.mem_singleton] at hr
      subst hr
      rfl)

/-- C3: an archive in the specification's layout whose header flags are not 0,
or one of whose records has flags other than 0, makes `main` panic
("Unsupported flags", resp. "Unsupported file flags") with no file-system call
made.  More generally every file with the magic, version 2 and a non-zero u32
at offset 20 panics with "Unsupported flags" and nothing written; a header is
accepted only with flags 0, and a laid-out record is accepted exactly when its
flags are 0. -/
theorem nonzero_flags_abort (major minor patch flags filesBase : Nat) (reserved : List Nat)
    (records : List Record) (rest : List Byte)
    (hmajor : major < 2 ^ 32) (hminor : minor < 2 ^ 32) (hpatch : patch < 2 ^ 32)
    (hflags : flags < 2 ^ 32) (hbase : filesBase < 2 ^ 64) (hres : reserved.length = 16)
    (hcount : records.length < 2 ^ 32) (hfit : ∀ r ∈ records, r.fits)
    (hbad : flags ≠ 0 ∨ ∃ r ∈ records, r.flags ≠ 0) :
    main (layoutArchive 2 major minor patch flags filesBase reserved records ++ rest)
        = Run.halt (if flags ≠ 0 then .unsupportedFlags else .unsupportedFileFlags) ∧
      (main (layoutArchive 2 major minor patch flags filesBase reserved records ++ rest)).ops
        = [] ∧
      (∀ content : List Byte, content.take 4 = MAGIC →
        leValue ((content.drop 4).take 4) = 2 → 24 ≤ content.length →
        leValue ((content.drop 20).take 4) ≠ 0 → main content = Run.halt .unsupportedFlags) ∧
      (∀ (content : List Byte) hdr p, readHeader content = .ok (hdr, p) →
        leValue ((content.drop 20).take 4) = 0 ∧ hdr.flags = 0) ∧
      (∀ (content tl : List Byte) pos (r : Record), r.fits →
        content.drop pos = layoutRecord r ++ tl →
        ((∃ f p, readEntry content pos = .ok (f, p)) ↔ r.flags = 0)) := by
  have hmain : main (layoutArchive 2 major minor patch flags filesBase reserved records ++ rest)
      = Run.halt (if flags ≠ 0 then .unsupportedFlags else .unsupportedFileFlags) := by
    obtain ⟨e1, d1⟩ := readHeader_layout major minor patch flags filesBase reserved records
      rest hmajor hminor hpatch hflags hbase hres hcount
    by_cases hf : flags = 0
    · have hrec : ∃ r ∈ records, r.flags ≠ 0 := by
        rcases hbad with h | h
        · exact absurd hf h
        · exact h
      simp only [hf, ne_eq, not_true_eq_false, if_false] at e1 ⊢
      rw [hf] at d1
      have e2 := readEntries_bad_flags _ rest records 100 d1 hfit hrec
      simp only [main, parseArchive, e1, e2]
    · simp only [hf, ne_eq, not_false_eq_true, if_true] at e1 ⊢
      simp only [main, parseArchive, e1]
  refine ⟨hmain, by rw [hmain]; rfl, ?_, ?_, ?_⟩
  · intro content hm hv hlen hfl
    have h := readHeader_bad_flags content hm hv hlen hfl
    exact main_of_parse_error content _ (parseArchive_of_header_error content _ h)
  · intro content hdr p h
    obtain ⟨_, _, _, _, h5, h6⟩ := readHeader_ok_inv content hdr p h
    exact ⟨h5, h6⟩
  · intro content tl pos r hr h
    obtain ⟨e1, _⟩ := readEntry_layout_fits content tl pos r hr h
    rw [e1]
    by_cases hf : r.flags = 0
    · simp [hf]
    · simp [hf]

set_option maxRecDepth 1000000 in
/-- C3 on the scenario archive with header flags 1 (`PackDirEncrypted`) and on
the scenario archive with record flags 1 (`PackFileEncrypted`). -/
theorem nonzero_flags_abort_witness :
    main (layoutArchive 2 4 2 0 1 152 (List.replicate 16 0)
        [⟨ascii "res://a.txt", 0, 5, md5Sum (ascii "hello"), 0⟩] ++ ascii "hello")
      = Run.halt .unsupportedFlags ∧
    main (layoutArchive 2 4 2 0 0 152 (List.replicate 16 0)
        [⟨ascii "res://a.txt", 0, 5, md5Sum (ascii "hello"), 1⟩] ++ ascii "hello")
      = Run.halt .unsupportedFileFlags :=
  ⟨(nonzero_flags_abort 4 2 0 1 152 (List.replicate 16 0)
      [⟨ascii "res://a.txt", 0, 5, md5Sum (ascii "hello"), 0⟩] (ascii "hello")
      (by decide) (by decide) (by decide) (by decide) (by decide) (by decide) (by decide)
      (by
        intro r hr
        rw [List.mem_singleton] at hr
        subst hr
        unfold Record.fits
        decide)
      (Or.inl (by decide))).1,
   (nonzero_flags_abort 4 2 0 0 152 (List.replicate 16 0)
      [⟨ascii "res://a.txt", 0, 5, md5Sum (ascii "hello"), 1⟩] (ascii "hello")
      (by decide) (by decide) (by decide) (by decide) (by decide) (by decide) (by decide)
      (by
        intro r hr
        rw [List.mem_singleton] at hr
        subst hr
        unfold Record.fits
        decide)
      (Or.inr ⟨_, List.mem_singleton.mpr rfl, by decide⟩)).1⟩

/-! ## Alignment padding -/

theorem wrapInt64_of_lt (x : Int) (h0 : 0 ≤ x) (h1 : x < 2 ^ 63) : wrapInt64 x = x := by
  unfold wrapInt64 toInt64
  have e : (x % 2 ^ 64).toNat = x.toNat := by
    rw [Int.emod_eq_of_lt h0 (by omega)]
  rw [e]
  have hx : ((x.toNat : Nat) : Int) = x := Int.toNat_of_nonneg h0
  have hlt : x.toNat < 2 ^ 63 := by omega
  have hm : x.toNat % 2 ^ 64 = x.toNat := Nat.mod_eq_of_lt (by omega)
  rw [hm, if_pos hlt, hx]

theorem getPad_eq (alignment n : Int) (ha : 1 ≤ alignment) (ha64 : alignment < 2 ^ 63)
    (hn : 0 ≤ n) :
    getPad alignment n = some ((alignment - n % alignment) % alignment) := by
  have hne : alignment ≠ 0 := by omega
  have hrest : Int.tmod n alignment = n % alignment := Int.tmod_eq_emod hn (by omega)
  have h0 : 0 ≤ n % alignment := Int.emod_nonneg n hne
  have h1 : n % alignment < alignment := Int.emod_lt_of_pos n (by omega)
  simp only [getPad, hne, if_false, hrest]
  by_cases hpos : n % alignment > 0
  · have e : (alignment - n % alignment) % alignment = alignment - n % alignment :=
      Int.emod_eq_of_lt (by omega) (by omega)
    rw [if_pos hpos, wrapInt64_of_lt _ (by omega) (by omega), e]
  · have hz : n % alignment = 0 := by omega
    rw [if_neg hpos, hz, Int.sub_zero, Int.emod_self]

theorem pad_aligns (alignment n : Int) :
    (n + (alignment - n % alignment) % alignment) % alignment = 0 := by
  rw [Int.add_emod, Int.emod_emod, ← Int.add_emod]
  have : n + (alignment - n % alignment) = alignment + alignment * (n / alignment) := by
    have := Int.emod_add_ediv n alignment
    omega
  rw [this, Int.add_mul_emod_self_left, Int.emod_self]

/-- C13: for `alignment ≥ 1` and `n ≥ 0` (both 64-bit `int` values),
`getPad(alignment, n)` returns `(alignment - n mod alignment) mod alignment`,
which lies in `[0, alignment)` and makes `n + getPad(alignment, n)` a multiple
of `alignment`; in particular `0 ≤ getPad(4, n) < 4` and `(n + getPad(4, n))
mod 4 = 0`. -/
theorem getPad_spec (alignment n : Int) (ha : 1 ≤ alignment) (ha64 : alignment < 2 ^ 63)
    (hn : 0 ≤ n) :
    getPad alignment n = some ((alignment - n % alignment) % alignment) ∧
      0 ≤ (alignment - n % alignment) % alignment ∧
      (alignment - n % alignment) % alignment < alignment ∧
      (n + (alignment - n % alignment) % alignment) % alignment = 0 ∧
      (∃ p, getPad 4 n = some p ∧ 0 ≤ p ∧ p < 4 ∧ (n + p) % 4 = 0) := by
  refine ⟨getPad_eq alignment n ha ha64 hn, Int.emod_nonneg _ (by omega),
    Int.emod_lt_of_pos _ (by omega), pad_aligns alignment n, ?_⟩
  exact ⟨_, getPad_eq 4 n (by norm_num) (by norm_num) hn, Int.emod_nonneg _ (by norm_num),
    Int.emod_lt_of_pos _ (by norm_num), pad_aligns 4 n⟩

/-- C13 at alignment 4 and `n = 11`: the padding is 1. -/
theorem getPad_spec_witness : getPad 4 11 = some ((4 - 11 % 4) % 4) :=
  (getPad_spec 4 11 (by decide) (by decide) (by decide)).1

/-- C19: the number of bytes the directory loop skips after a path of length
`pathLen` is `getPad(4, pathLen)`, the cursor of `readEntry` moves by exactly
that number, and `pathLen` plus the skipped bytes is a multiple of 4. -/
theorem inlinePadding_eq_getPad (pathLen : Nat) :
    getPad 4 (pathLen : Int) = some ((inlinePadding pathLen : Nat) : Int) ∧
      inlinePadding pathLen = (if 4 - pathLen % 4 = 4 then 0 else 4 - pathLen % 4) ∧
      (∀ p : Nat, (if 4 - pathLen % 4 ≠ 4 then p + (4 - pathLen % 4) else p)
        = p + inlinePadding pathLen) ∧
      inlinePadding pathLen = padLen pathLen ∧
      (pathLen + inlinePadding pathLen) % 4 = 0 := by
  have hg := getPad_eq 4 (pathLen : Int) (by norm_num) (by norm_num) (by omega)
  refine ⟨?_, ?_, ?_, ?_, ?_⟩
  · rw [hg]
    congr 1
    unfold inlinePadding
    simp only
    split <;> omega
  · unfold inlinePadding
    by_cases h : 4 - pathLen % 4 = 4 <;> simp [h]
  · intro p
    unfold inlinePadding
    simp only
    split <;> omega
  · unfold inlinePadding padLen
    simp only
    split <;> omega
  · unfold inlinePadding
    simp only
    split <;> omega

/-! ## The seek position -/

/-- C20: the seek position is `(ofs + filesBase) mod 2^64` read as a signed
64-bit integer.  It equals `filesBase + ofs` exactly when that sum is below
2^63; it is negative, and the iteration panics with the seek error, when the
wrapped sum is in `[2^63, 2^64)`; and for two 64-bit values with `filesBase +
ofs ≥ 2^64` it is the signed reading of `filesBase + ofs - 2^64`, below the
sum. -/
theorem seekTarget_wraps (filesBase : Nat) (f : File) :
    seekTarget filesBase f = toInt64 ((f.ofs + filesBase) % 2 ^ 64) ∧
      (seekTarget filesBase f = ((filesBase + f.ofs : Nat) : Int) ↔ filesBase + f.ofs < 2 ^ 63) ∧
      (2 ^ 63 ≤ (f.ofs + filesBase) % 2 ^ 64 →
        seekTarget filesBase f < 0 ∧
        ∀ content, extractEntry content filesBase f = Run.halt .seekInvalid) ∧
      (filesBase < 2 ^ 64 → f.ofs < 2 ^ 64 → 2 ^ 64 ≤ filesBase + f.ofs →
        seekTarget filesBase f = toInt64 (filesBase + f.ofs - 2 ^ 64) ∧
        seekTarget filesBase f < ((filesBase + f.ofs : Nat) : Int)) := by
  refine ⟨rfl, ?_, ?_, ?_⟩
  · unfold seekTarget toInt64
    rw [Nat.mod_mod]
    constructor
    · intro h
      split at h <;> omega
    · intro h
      have : (f.ofs + filesBase) % 2 ^ 64 = filesBase + f.ofs := by omega
      rw [this, if_pos h]
  · intro h
    have hneg : seekTarget filesBase f < 0 := by
      unfold seekTarget toInt64
      rw [Nat.mod_mod]
      split <;> omega
    refine ⟨hneg, fun content => ?_⟩
    simp only [extractEntry, hneg, if_true]
  · intro hb ho hs
    have hm : (f.ofs + filesBase) % 2 ^ 64 = filesBase + f.ofs - 2 ^ 64 := by omega
    refine ⟨by unfold seekTarget; rw [hm], ?_⟩
    unfold seekTarget toInt64
    rw [Nat.mod_mod]
    split <;> omega

/-- C20 at `filesBase = 2^63` and `ofs = 0`: the seek target is negative. -/
theorem seekTarget_wraps_witness :
    seekTarget (2 ^ 63) ⟨[], 0, 0, [], false⟩ < 0 :=
  ((seekTarget_wraps (2 ^ 63) ⟨[], 0, 0, [], false⟩).2.2.1 (by decide)).1
/-! ## Little-endian reads -/

theorem bytesToUint32_eq_leValue (a : List Byte) (h : a.length = 4) :
    bytesToUint32 a = some (leValue a) := by
  rcases a with _ | ⟨b0, _ | ⟨b1, _ | ⟨b2, _ | ⟨b3, _ | ⟨b4, t⟩⟩⟩⟩⟩ <;>
    simp only [List.length_cons, List.length_nil] at h <;> try omega
  rw [bytesToUint32_cons]
  simp only [leValue]
  congr 1
  omega

theorem bytesToUint64_eq_leValue (a : List Byte) (h : a.length = 8) :
    bytesToUint64 a = some (leValue a) := by
  rcases a with _ | ⟨b0, _ | ⟨b1, _ | ⟨b2, _ | ⟨b3, _ | ⟨b4, _ | ⟨b5, _ | ⟨b6, _ | ⟨b7,
    _ | ⟨b8, t⟩⟩⟩⟩⟩⟩⟩⟩⟩ <;>
    simp only [List.length_cons, List.length_nil] at h <;> try omega
  rw [bytesToUint64_cons]
  simp only [leValue]
  congr 1
  omega

theorem leValue_inj (a b : List Byte) (hlen : a.length = b.length)
    (h : leValue a = leValue b) : a = b := by
  rw [← leBytes_leValue a, ← leBytes_leValue b, hlen, h]

/-- C16: `bytesToUint32` of four bytes is `b0 + 2^8 b1 + 2^16 b2 + 2^24 b3`;
`readUint64` with eight bytes `b0..b7` at the cursor returns the sum of
`b_i * 2^(8 i)` and moves the cursor by 8; both undo the little-endian
encoding of a value that fits; and byte strings with the same value are
equal. -/
theorem little_endian_decoding :
    (∀ (b0 b1 b2 b3 : Byte) (t : List Byte),
      bytesToUint32 (b0 :: b1 :: b2 :: b3 :: t)
        = some (b0.val + 2 ^ 8 * b1.val + 2 ^ 16 * b2.val + 2 ^ 24 * b3.val)) ∧
    (∀ (content tl : List Byte) (pos : Nat) (b0 b1 b2 b3 b4 b5 b6 b7 : Byte),
      content.drop pos = b0 :: b1 :: b2 :: b3 :: b4 :: b5 :: b6 :: b7 :: tl →
      readUint64 content pos
        = .ok (b0.val + 2 ^ 8 * b1.val + 2 ^ 16 * b2.val + 2 ^ 24 * b3.val
            + 2 ^ 32 * b4.val + 2 ^ 40 * b5.val + 2 ^ 48 * b6.val + 2 ^ 56 * b7.val,
          pos + 8)) ∧
    (∀ x, x < 2 ^ 32 → bytesToUint32 (leBytes 4 x) = some x) ∧
    (∀ (content tl : List Byte) (pos x : Nat), x < 2 ^ 32 →
      content.drop pos = leBytes 4 x ++ tl → readUint32 content pos = .ok (x, pos + 4)) ∧
    (∀ (content tl : List Byte) (pos x : Nat), x < 2 ^ 64 →
      content.drop pos = leBytes 8 x ++ tl → readUint64 content pos = .ok (x, pos + 8)) ∧
    (∀ a b : List Byte, a.length = 4 → b.length = 4 →
      bytesToUint32 a = bytesToUint32 b → a = b) ∧
    (∀ a b : List Byte, a.length = 8 → b.length = 8 →
      bytesToUint64 a = bytesToUint64 b → a = b) := by
  refine ⟨?_, ?_, ?_, ?_, ?_, ?_, ?_⟩
  · intro b0 b1 b2 b3 t
    rw [bytesToUint32_cons]
    norm_num
  · intro content tl pos b0 b1 b2 b3 b4 b5 b6 b7 h
    have hr := fileRead_of_drop content [b0, b1, b2, b3, b4, b5, b6, b7] tl pos
      (by simpa using h) (le_maxRW_of_le _ (by simp))
    simp only [List.length_cons, List.length_nil] at hr
    simp only [readUint64, hr, bytesToUint64_cons]
    norm_num
  · intro x hx
    have := bytesToUint32_leBytes x hx []
    simpa using this
  · intro content tl pos x hx h
    exact readUint32_of_drop content tl pos x hx h
  · intro content tl pos x hx h
    exact readUint64_of_drop content tl pos x hx h
  · intro a b ha hb h
    rw [bytesToUint32_eq_leValue a ha, bytesToUint32_eq_leValue b hb] at h
    exact leValue_inj a b (by omega) (Option.some.inj h)
  · intro a b ha hb h
    rw [bytesToUint64_eq_leValue a ha, bytesToUint64_eq_leValue b hb] at h
    exact leValue_inj a b (by omega) (Option.some.inj h)

/-- C16 at the bytes `78 56 34 12`: the value is `0x12345678`. -/
theorem little_endian_decoding_witness :
    bytesToUint32 (leBytes 4 0x12345678) = some 0x12345678 ∧
      readUint64 (leBytes 8 (2 ^ 64 - 1)) 0 = .ok (2 ^ 64 - 1, 0 + 8) :=
  ⟨little_endian_decoding.2.2.1 0x12345678 (by decide),
   little_endian_decoding.2.2.2.2.1 (leBytes 8 (2 ^ 64 - 1)) [] 0 (2 ^ 64 - 1) (by decide)
     (by decide)⟩

set_option maxRecDepth 1000000 in
/-- C14 (the code accepts partial reads): with one byte left `readUint32`
returns 2 built from that byte and three zero bytes, with three bytes left
`readUint64` returns a value built from them, and an archive cut inside its
entry-count field is parsed as having 0 entries and `main` completes.  Only
with no byte left does the read end with `io.EOF`. -/
theorem partial_read_accepted :
    readUint32 (ascii "GDPC" ++ [2]) 4 = .ok (2, 5) ∧
      readUint64 [1, 2, 3] 0 = .ok (0x030201, 3) ∧
      readUint32 (ascii "GDPC") 4 = .error .eof ∧
      (layoutArchive 2 4 2 0 0 100 (List.replicate 16 0) []).length = 100 ∧
      main ((layoutArchive 2 4 2 0 0 100 (List.replicate 16 0) []).take 97) = Run.done := by
  decide

/-! ## Signature and version of a texture container -/

set_option maxRecDepth 1000000 in
/-- C12 (the code panics): `data[0]` is indexed without a length check, so the
empty buffer and the proper prefixes `G`, `GS`, `GST` of the signature end in
an index-out-of-range panic, while other short buffers are skipped.  In `main`
an entry `res://t.ctex` of size 0 is written and then the decoder panics. -/
theorem short_buffer_panics :
    unpackImageResource (ascii "t.ctex") [] = Run.halt .outOfRange ∧
      unpackImageResource (ascii "t.ctex") (ascii "G") = Run.halt .outOfRange ∧
      unpackImageResource (ascii "t.ctex") (ascii "GS") = Run.halt .outOfRange ∧
      unpackImageResource (ascii "t.ctex") (ascii "GST") = Run.halt .outOfRange ∧
      unpackImageResource (ascii "t.ctex") (ascii "PNG") = Run.done ∧
      main (oneEntryArchive 152 (ascii "res://t.ctex") 0 0 [])
        = ⟨[FsOp.mkdirAll (ascii "export"), FsOp.writeFile (ascii "export/t.ctex") []],
           [], some .outOfRange⟩ := by
  decide

theorem unpackImageResource_accepted (path data : List Byte) (hlen : 40 ≤ data.length)
    (hsig : data.take 4 = ascii "GST2") (hver : leValue ((data.drop 4).take 4) = 1) :
    unpackImageResource path data
      = mipmapLoop path data (leValue ((data.drop 36).take 4)) 0 0x34 := by
  have hg := isGST2_of_take data hsig
  have hv := int32At_of_le data 4 (by omega)
  have hw := int32At_of_le data 8 (by omega)
  have hh := int32At_of_le data 12 (by omega)
  have hm := int32At_of_le data 36 (by omega)
  rw [hver] at hv
  simp only [unpackImageResource, hg, hv, hw, hh, hm, ne_eq, not_true_eq_false, if_false]

/-- C17: a buffer of at least 8 bytes with signature `GST2` and a
little-endian u32 other than 1 at offset 4 makes the decoder panic with
"Unsupported GST2 version", with no file written. -/
theorem gst2_bad_version (path data : List Byte) (hlen : 8 ≤ data.length)
    (hsig : data.take 4 = ascii "GST2") (hver : leValue ((data.drop 4).take 4) ≠ 1) :
    unpackImageResource path data = Run.halt .unsupportedGST2Version ∧
      (unpackImageResource path data).ops = [] := by
  have hg := isGST2_of_take data hsig
  have hv := int32At_of_le data 4 (by omega)
  have h : unpackImageResource path data = Run.halt .unsupportedGST2Version := by
    simp only [unpackImageResource, hg, hv, ne_eq, hver, not_false_eq_true, if_true]
  exact ⟨h, by rw [h]; rfl⟩

/-- C17 at the 8-byte buffer `GST2` followed by version 2. -/
theorem gst2_bad_version_witness :
    unpackImageResource (ascii "t.ctex") (ascii "GST2" ++ leBytes 4 2)
      = Run.halt .unsupportedGST2Version :=
  (gst2_bad_version (ascii "t.ctex") (ascii "GST2" ++ leBytes 4 2) (by decide) (by decide)
    (by decide)).1
/-! ## Truncated and overrunning texture containers -/

theorem mipmapRecords_length (ds : List (List Byte)) :
    (mipmapRecords ds).length = (ds.map (fun d => 4 + d.length)).sum := by
  induction ds with
  | nil => rfl
  | cons d ds ih =>
    rw [mipmapRecords_cons]
    simp only [List.length_append, leBytes_length, ih, List.map_cons, List.sum_cons]
    omega

theorem mipmapLoop_break (path data : List Byte) (n i base : Nat)
    (h : base + 4 > data.length) : mipmapLoop path data n i base = Run.done := by
  cases n with
  | zero => rfl
  | succ n => simp only [mipmapLoop, h, if_true]

theorem mipmapLoop_overrun (path data : List Byte) (n i base : Nat)
    (h1 : base + 4 ≤ data.length)
    (h2 : base + 4 + leValue ((data.drop base).take 4) > data.length) :
    mipmapLoop path data (n + 1) i base = Run.halt .outOfRange := by
  have hs := int32At_of_le data base h1
  have h1n : ¬ base + 4 > data.length := by omega
  simp only [mipmapLoop, h1n, if_false, hs, h2, if_true]

theorem unpackImageResource_header_append (path header body : List Byte)
    (hlen : header.length = 52) (hsig : header.take 4 = ascii "GST2")
    (hver : leValue ((header.drop 4).take 4) = 1) :
    unpackImageResource path (header ++ body)
      = mipmapLoop path (header ++ body) (leValue ((header.drop 36).take 4)) 0 0x34 := by
  have hslice : ∀ k, k + 4 ≤ 52 →
      ((header ++ body).drop k).take 4 = (header.drop k).take 4 := by
    intro k hk
    rw [List.drop_append_of_le_length (by omega), List.take_append_of_le_length]
    rw [List.length_drop]; omega
  have h := unpackImageResource_accepted path (header ++ body)
    (by rw [List.length_append]; omega)
    (by rw [List.take_append_of_le_length (by omega)]; exact hsig)
    (by rw [hslice 4 (by omega)]; exact hver)
  rw [h, hslice 36 (by omega)]

/-- C18: in an accepted buffer (signature `GST2`, version 1, at least 40
bytes) whose first `k` records are complete and whose next size field is
readable but declares more payload than the buffer holds, the decoder panics
with slice bounds out of range after the `k` writes of the earlier mipmaps and
writes nothing for that mipmap or later ones; at the level of the loop, any
iteration with `base + 4 ≤ len` and `base + 4 + size > len` panics at once. -/
theorem payload_overrun_panics (path data post : List Byte) (ds1 : List (List Byte))
    (m : Nat) (hlen : 40 ≤ data.length) (hsig : data.take 4 = ascii "GST2")
    (hver : leValue ((data.drop 4).take 4) = 1)
    (hcnt : leValue ((data.drop 36).take 4) = ds1.length + (m + 1))
    (hdrop : data.drop 0x34 = mipmapRecords ds1 ++ post)
    (hds : ∀ d ∈ ds1, d.length < 2 ^ 32)
    (hsz : 4 ≤ post.length) (hover : 4 + leValue (post.take 4) > post.length) :
    unpackImageResource path data = ⟨mipmapWrites path 0 ds1, [], some .outOfRange⟩ ∧
      (∀ n i base, base + 4 ≤ data.length →
        base + 4 + leValue ((data.drop base).take 4) > data.length →
        mipmapLoop path data (n + 1) i base = Run.halt .outOfRange) := by
  refine ⟨?_, fun n i base h1 h2 => mipmapLoop_overrun path data n i base h1 h2⟩
  have hloop := mipmapLoop_records path data post (m + 1) ds1 0 0x34 hdrop hds
  have hpost := drop_add_of_drop data _ _ 0x34 hdrop
  rw [mipmapRecords_length] at hpost
  have hL : 0x34 + (ds1.map (fun d => 4 + d.length)).sum + post.length = data.length := by
    have := congrArg List.length hpost
    simp only [List.length_drop] at this
    omega
  have hov := mipmapLoop_overrun path data m (0 + ds1.length)
    (0x34 + (ds1.map (fun d => 4 + d.length)).sum) (by omega) (by rw [hpost]; omega)
  rw [unpackImageResource_accepted path data hlen hsig hver, hcnt, hloop, hov]
  simp only [Run.andThen, Run.halt, List.append_nil]

set_option maxRecDepth 1000000 in
/-- C18 on a container declaring two mipmaps, the first `ab`, the second
declaring 5 bytes with only `c` present. -/
theorem payload_overrun_panics_witness :
    unpackImageResource (ascii "t.ctex")
        (ascii "GST2" ++ leBytes 4 1 ++ List.replicate 28 0 ++ leBytes 4 2
          ++ List.replicate 12 0 ++ mipmapRecords [ascii "ab"] ++ (leBytes 4 5 ++ ascii "c"))
      = ⟨mipmapWrites (ascii "t.ctex") 0 [ascii "ab"], [], some .outOfRange⟩ :=
  (payload_overrun_panics (ascii "t.ctex")
    (ascii "GST2" ++ leBytes 4 1 ++ List.replicate 28 0 ++ leBytes 4 2
      ++ List.replicate 12 0 ++ mipmapRecords [ascii "ab"] ++ (leBytes 4 5 ++ ascii "c"))
    (leBytes 4 5 ++ ascii "c") [ascii "ab"] 0
    (by decide) (by decide) (by decide) (by decide) (by decide) (by decide) (by decide)
    (by decide)).1

/-- C11: a well-formed buffer declaring the mipmaps `ds1 ++ d :: ds2`, cut to a
length `L` inside the size field of mipmap `k = |ds1|` (`s_k ≤ L < s_k + 4`
with `s_k = 52 + Σ (4 + |d_i|)` over `ds1`), makes the decoder write exactly
the files of mipmaps `0..k-1` with their full contents and nothing else, with
no panic. -/
theorem truncated_size_field (path header : List Byte) (ds1 : List (List Byte))
    (d : List Byte) (ds2 : List (List Byte)) (L : Nat)
    (hlen : header.length = 52) (hsig : header.take 4 = ascii "GST2")
    (hver : leValue ((header.drop 4).take 4) = 1)
    (hcnt : leValue ((header.drop 36).take 4) = (ds1 ++ d :: ds2).length)
    (hds : ∀ x ∈ ds1 ++ d :: ds2, x.length < 2 ^ 32)
    (hL1 : 52 + (ds1.map (fun x => 4 + x.length)).sum ≤ L)
    (hL2 : L < 52 + (ds1.map (fun x => 4 + x.length)).sum + 4) :
    unpackImageResource path ((header ++ mipmapRecords (ds1 ++ d :: ds2)).take L)
        = ⟨mipmapWrites path 0 ds1, [], none⟩ ∧
      (mipmapWrites path 0 ds1).length = ds1.length ∧
      (∀ i x, ds1[i]? = some x →
        (mipmapWrites path 0 ds1)[i]? = some (FsOp.writeFile (mipmapName path i) x)) := by
  refine ⟨?_, mipmapWrites_length path 0 ds1, ?_⟩
  · have hrec : mipmapRecords (ds1 ++ d :: ds2)
        = mipmapRecords ds1 ++ mipmapRecords (d :: ds2) := by
      simp [mipmapRecords]
    have hsum := mipmapRecords_length ds1
    have hB : 4 ≤ (mipmapRecords (d :: ds2)).length := by
      rw [mipmapRecords_cons]
      simp only [List.length_append, leBytes_length]
      omega
    obtain ⟨j, hj⟩ : ∃ j, L = (header ++ mipmapRecords ds1).length + j :=
      ⟨L - (header ++ mipmapRecords ds1).length, by
        rw [List.length_append, hlen, hsum]; omega⟩
    have hj4 : j < 4 := by
      rw [List.length_append, hlen, hsum] at hj; omega
    have hdata : (header ++ mipmapRecords (ds1 ++ d :: ds2)).take L
        = header ++ (mipmapRecords ds1 ++ (mipmapRecords (d :: ds2)).take j) := by
      rw [hrec, ← List.append_assoc, hj, List.take_append, List.append_assoc]
    rw [hdata, unpackImageResource_header_append path header _ hlen hsig hver, hcnt]
    have hdrop : (header ++ (mipmapRecords ds1 ++ (mipmapRecords (d :: ds2)).take j)).drop 0x34
        = mipmapRecords ds1 ++ (mipmapRecords (d :: ds2)).take j := by
      have : (0x34 : Nat) = header.length := by rw [hlen]
      rw [this, List.drop_left]
    have hloop := mipmapLoop_records path _ _ (ds2.length + 1) ds1 0 0x34 hdrop
      (fun x hx => hds x (List.mem_append_left _ hx))
    have hn : (ds1 ++ d :: ds2).length = ds1.length + (ds2.length + 1) := by
      simp only [List.length_append, List.length_cons]
    rw [hn, hloop, mipmapLoop_break]
    · simp only [Run.andThen, Run.done, List.append_nil]
    · simp only [List.length_append, List.length_take, hlen, hsum]
      omega
  · intro i x h
    have := mipmapWrites_getElem? path ds1 0 i x h
    rw [Nat.zero_add] at this
    exact this

set_option maxRecDepth 1000000 in
/-- C11 on a container with the mipmaps `ab` and `c` cut two bytes into the
second size field (offset 58): only `t.ctex_0` is written. -/
theorem truncated_size_field_witness :
    unpackImageResource (ascii "t.ctex")
        (((ascii "GST2" ++ leBytes 4 1 ++ List.replicate 28 0 ++ leBytes 4 2
            ++ List.replicate 12 0) ++ mipmapRecords ([ascii "ab"] ++ ascii "c" :: [])).take 60)
      = ⟨mipmapWrites (ascii "t.ctex") 0 [ascii "ab"], [], none⟩ :=
  (truncated_size_field (ascii "t.ctex")
    (ascii "GST2" ++ leBytes 4 1 ++ List.replicate 28 0 ++ leBytes 4 2 ++ List.replicate 12 0)
    [ascii "ab"] (ascii "c") [] 60
    (by decide) (by decide) (by decide) (by decide) (by decide) (by decide) (by decide)).1
/-! ## Trimming the path field -/

theorem dropWhile_nul_replicate (a : Nat) (l : List Byte) :
    (List.replicate a (0 : Byte) ++ l).dropWhile (fun b => b = 0)
      = l.dropWhile (fun b => b = 0) := by
  induction a with
  | zero => rfl
  | succ a ih => simp [List.replicate_succ, List.dropWhile, ih]

theorem dropWhile_nul_of_head (l : List Byte) (h : l.head? ≠ some 0) :
    l.dropWhile (fun b => b = 0) = l := by
  cases l with
  | nil => rfl
  | cons x t =>
    have hx : x ≠ 0 := fun hx => h (by simp [hx])
    simp [List.dropWhile, hx]

theorem trimNul_sandwich (a b : Nat) (mid : List Byte) (hh : mid.head? ≠ some 0)
    (hl : mid.getLast? ≠ some 0) :
    trimNul (List.replicate a 0 ++ mid ++ List.replicate b 0) = mid := by
  unfold trimNul
  rw [List.append_assoc, dropWhile_nul_replicate]
  cases mid with
  | nil =>
    have : (List.replicate b (0 : Byte)) = List.replicate b 0 ++ [] := by simp
    rw [List.nil_append, this, dropWhile_nul_replicate]
    rfl
  | cons x t =>
    have hx : x ≠ 0 := fun hx => hh (by simp [hx])
    have h1 : (x :: t ++ List.replicate b 0).dropWhile (fun c => c = 0)
        = x :: t ++ List.replicate b 0 := by
      simp [List.dropWhile, hx]
    rw [h1, List.reverse_append, List.reverse_replicate, dropWhile_nul_replicate,
      dropWhile_nul_of_head _ (by rw [List.head?_reverse]; exact hl), List.reverse_reverse]

set_option maxRecDepth 1000000 in
/-- C15 (as stated, refuted): for the raw path field `00 61 00 00` the parser
keeps `61`, while removing only the trailing NUL bytes gives `00 61`: the
leading NUL byte is removed too. -/
theorem leading_nul_removed :
    readEntry (layoutRecord ⟨[0, 0x61, 0, 0], 0, 0, List.replicate 16 0, 0⟩) 0
        = .ok (⟨[0x61], 0, 0, List.replicate 16 0, false⟩, 44) ∧
      stripTrailingNul [0, 0x61, 0, 0] = [0, 0x61] ∧
      trimNul [0, 0x61, 0, 0] ≠ stripTrailingNul [0, 0x61, 0, 0] := by
  decide

/-- C15 (amended): the path of a parsed entry is the raw path field with all
leading and all trailing NUL bytes removed and nothing else: if the raw field
is `a` NUL bytes, then `mid`, then `b` NUL bytes, where `mid` neither begins
nor ends with NUL, the path is `mid`, interior NUL bytes included. -/
theorem path_trims_both_ends (content tl : List Byte) (pos : Nat) (r : Record)
    (hr : r.fits) (hz : r.flags = 0) (h : content.drop pos = layoutRecord r ++ tl) :
    (∃ f p, readEntry content pos = .ok (f, p) ∧ f.path = trimNul r.path) ∧
      (∀ (a b : Nat) (mid : List Byte), mid.head? ≠ some 0 → mid.getLast? ≠ some 0 →
        r.path = List.replicate a 0 ++ mid ++ List.replicate b 0 →
        ∃ f p, readEntry content pos = .ok (f, p) ∧ f.path = mid) := by
  obtain ⟨e1, _⟩ := readEntry_layout_fits content tl pos r hr h
  simp only [hz, ne_eq, not_true_eq_false, if_false] at e1
  refine ⟨⟨_, _, e1, rfl⟩, ?_⟩
  intro a b mid hh hl hp
  refine ⟨_, _, e1, ?_⟩
  simp only [hp]
  exact trimNul_sandwich a b mid hh hl

set_option maxRecDepth 1000000 in
/-- C15 (amended) on the raw path field `00 61 00 62 00`: the path kept is
`61 00 62`. -/
theorem path_trims_both_ends_witness :
    ∃ f p, readEntry (layoutRecord ⟨[0, 0x61, 0, 0x62, 0], 0, 0, List.replicate 16 0, 0⟩) 0
        = .ok (f, p) ∧ f.path = [0x61, 0, 0x62] :=
  (path_trims_both_ends
    (layoutRecord ⟨[0, 0x61, 0, 0x62, 0], 0, 0, List.replicate 16 0, 0⟩) [] 0
    ⟨[0, 0x61, 0, 0x62, 0], 0, 0, List.replicate 16 0, 0⟩
    (by unfold Record.fits; decide) rfl (by simp)).2 1 1 [0x61, 0, 0x62]
    (by decide) (by decide) (by decide)

/-! ## Long path fields -/

theorem length_dropWhile_nul_le (l : List Byte) :
    (l.dropWhile (fun b => b = 0)).length ≤ l.length :=
  (List.dropWhile_sublist _).length_le

theorem trimNul_length_le (l : List Byte) : (trimNul l).length ≤ l.length := by
  unfold trimNul
  rw [List.length_reverse]
  refine Nat.le_trans (length_dropWhile_nul_le _) ?_
  rw [List.length_reverse]
  exact length_dropWhile_nul_le l

theorem trimNul_padded_length_le (got : List Byte) (k : Nat) :
    (trimNul (got ++ List.replicate k 0)).length ≤ got.length := by
  unfold trimNul
  rw [List.length_reverse, List.dropWhile_append]
  split
  · have h0 : (List.replicate k (0 : Byte)).dropWhile (fun b => b = 0) = [] := by
      have := dropWhile_nul_replicate k []
      rw [List.append_nil] at this
      exact this
    rw [h0]
    simp
  · rw [List.reverse_append, List.reverse_replicate, dropWhile_nul_replicate]
    refine Nat.le_trans (length_dropWhile_nul_le _) ?_
    rw [List.length_reverse]
    exact length_dropWhile_nul_le got

theorem fileRead_buffer (content buf : List Byte) (pos n p : Nat)
    (h : fileRead content pos n = .ok (buf, p)) :
    ∃ got k, buf = got ++ List.replicate k 0 ∧ got.length ≤ maxRW := by
  unfold fileRead at h
  split at h
  · simp only [Except.ok.injEq, Prod.mk.injEq] at h
    exact ⟨[], 0, by simp [h.1.symm], by simp⟩
  · split at h
    · simp at h
    · simp only [Except.ok.injEq, Prod.mk.injEq] at h
      refine ⟨_, _, h.1.symm, ?_⟩
      rw [List.length_take]
      omega

/-- The path of a parsed record is never longer than one `Read` delivers. -/
theorem readEntry_path_length (content : List Byte) (pos p : Nat) (f : File)
    (h : readEntry content pos = .ok (f, p)) : f.path.length ≤ maxRW := by
  rcases h1 : readUint32 content pos with e | ⟨pathLen, p1⟩
  · simp [readEntry, h1, bind, Except.bind] at h
  rcases h2 : fileRead content p1 pathLen with e | ⟨pathByte, p2⟩
  · simp [readEntry, h1, h2, bind, Except.bind] at h
  obtain ⟨got, k, hbuf, hgot⟩ := fileRead_buffer content pathByte p1 pathLen p2 h2
  have hlen : (trimNul pathByte).length ≤ maxRW := by
    rw [hbuf]
    exact Nat.le_trans (trimNul_padded_length_le got k) hgot
  simp only [readEntry, h1, h2, padding_skip, bind, Except.bind] at h
  rcases h3 : readUint64 content (p2 + padLen pathLen) with e | ⟨ofs, p3⟩
  · simp [h3] at h
  simp only [h3] at h
  rcases h4 : readUint64 content p3 with e | ⟨size, p4⟩
  · simp [h4] at h
  simp only [h4] at h
  rcases h5 : fileRead content p4 16 with e | ⟨md5Byte, p5⟩
  · simp [h5] at h
  simp only [h5] at h
  rcases h6 : readUint32 content p5 with e | ⟨flags, p6⟩
  · simp [h6] at h
  simp only [h6] at h
  by_cases hf : flags = 0
  · simp [hf, pure, Except.pure] at h
    rw [← h.1]
    exact hlen
  · simp [hf, pure, Except.pure, throw, throwThe, MonadExceptOf.throw] at h

theorem readEntries_path_length (content : List Byte) (n : Nat) :
    ∀ (pos p : Nat) (fs : List File), readEntries content n pos = .ok (fs, p) →
      ∀ f ∈ fs, f.path.length ≤ maxRW := by
  induction n with
  | zero =>
    intro pos p fs h f hf
    simp only [readEntries, Except.ok.injEq, Prod.mk.injEq] at h
    rw [← h.1] at hf
    simp at hf
  | succ n ih =>
    intro pos p fs h f hf
    rcases h1 : readEntry content pos with e | ⟨g, p1⟩
    · simp [readEntries, h1] at h
    rcases h2 : readEntries content n p1 with e | ⟨gs, p2⟩
    · simp [readEntries, h1, h2] at h
    simp only [readEntries, h1, h2, Except.ok.injEq, Prod.mk.injEq] at h
    rw [← h.1] at hf
    rcases List.mem_cons.mp hf with rfl | hf
    · exact readEntry_path_length content pos p1 f h1
    · exact ih p1 p2 gs h2 f hf

theorem parseArchive_path_length (content : List Byte) (hdr : Header) (fs : List File)
    (h : parseArchive content = .ok (hdr, fs)) : ∀ f ∈ fs, f.path.length ≤ maxRW := by
  rcases h1 : readHeader content with e | ⟨hd, p⟩
  · simp [parseArchive, h1] at h
  rcases h2 : readEntries content hd.numFiles p with e | ⟨gs, p2⟩
  · simp [parseArchive, h1, h2] at h
  simp only [parseArchive, h1, h2, Except.ok.injEq, Prod.mk.injEq] at h
  rw [← h.2]
  exact readEntries_path_length content _ p p2 gs h2

theorem long_path_not_recovered (n : Nat) (hn : maxRW < n) (content : List Byte)
    (hdr : Header) (b : Byte) (ofs size : Nat) (md5 : List Byte) (fs : List File) :
    parseArchive content
      ≠ .ok (hdr, Record.toFile ⟨List.replicate n b, ofs, size, md5, 0⟩ :: fs) := by
  intro h
  have := parseArchive_path_length content hdr _ h _ (List.mem_cons_self _ _)
  simp only [Record.toFile, List.length_replicate] at this
  omega

/-- C2 (as stated, refuted): a record whose path is 2^30 + 1 bytes `01`, below
2^32 bytes and free of NUL, is not recovered: one `Read` call delivers at most
2^30 bytes of the path field, so no parsed record has a longer path. -/
theorem path_over_one_read_not_recovered :
    (⟨List.replicate (2 ^ 30 + 1) 1, 0, 0, List.replicate 16 0, 0⟩ : Record).path.length
        < 2 ^ 32 ∧
      (0 : Byte) ∉ (⟨List.replicate (2 ^ 30 + 1) 1, 0, 0, List.replicate 16 0, 0⟩ : Record).path ∧
      parseArchive (layoutArchive 2 4 2 0 0 0 (List.replicate 16 0)
          [⟨List.replicate (2 ^ 30 + 1) 1, 0, 0, List.replicate 16 0, 0⟩])
        ≠ .ok (⟨2, 4, 2, 0, 0, 0, 1⟩,
               [Record.toFile ⟨List.replicate (2 ^ 30 + 1) 1, 0, 0, List.replicate 16 0, 0⟩]) := by
  refine ⟨?_, ?_, ?_⟩
  · show (List.replicate (2 ^ 30 + 1) (1 : Byte)).length < 2 ^ 32
    rw [List.length_replicate]
    decide
  · show (0 : Byte) ∉ List.replicate (2 ^ 30 + 1) (1 : Byte)
    intro h
    have := List.eq_of_mem_replicate h
    exact absurd this (by decide)
  · exact long_path_not_recovered (2 ^ 30 + 1) (by decide) _ _ 1 0 0 _ []
/-! ## Payloads longer than one read -/

theorem fileRead_capped (content : List Byte) (pos n : Nat)
    (h1 : pos + maxRW ≤ content.length) (h2 : maxRW < n) :
    fileRead content pos n
      = .ok ((content.drop pos).take maxRW ++ List.replicate (n - maxRW) 0, pos + maxRW) := by
  have hm : 0 < maxRW := by decide
  have hn : n ≠ 0 := by omega
  have hlt : ¬ content.length ≤ pos := by omega
  have hlen : ((content.drop pos).take maxRW).length = maxRW := by
    rw [List.length_take, List.length_drop]; omega
  simp only [fileRead, hn, hlt, if_false, Nat.min_eq_right (Nat.le_of_lt h2), hlen]

/-- The run of `main` on `bigPayloadArchive size payload` when the payload is
longer than one `Read` delivers. -/
theorem main_bigPayloadArchive (size : Nat) (payload : List Byte)
    (h1 : maxRW < size) (h2 : size ≤ maxAlloc) (h3 : maxRW ≤ payload.length) :
    (main (bigPayloadArchive size payload)).ops
        = [FsOp.mkdirAll (ascii "export"),
           FsOp.writeFile (ascii "export/a.bin")
             (payload.take maxRW ++ List.replicate (size - maxRW) 0)] ∧
      (main (bigPayloadArchive size payload)).err = none := by
  have hfit : ∀ r ∈ [(⟨ascii "res://a.bin", 0, size, List.replicate 16 0, 0⟩ : Record)],
      r.fits := by
    intro r hr
    rw [List.mem_singleton] at hr
    subst hr
    refine ⟨?_, ?_, ?_, ?_, ?_⟩
    · show (ascii "res://a.bin").length ≤ maxRW
      decide
    · show 0 < 2 ^ 64
      decide
    · show size < 2 ^ 64
      unfold maxAlloc at h2
      omega
    · show (List.replicate 16 (0 : Byte)).length = 16
      decide
    · show 0 < 2 ^ 32
      decide
  obtain ⟨e1, d1⟩ := readHeader_layout 4 2 0 0 152 (List.replicate 16 0)
    [⟨ascii "res://a.bin", 0, size, List.replicate 16 0, 0⟩] payload
    (by decide) (by decide) (by decide) (by decide) (by decide) (by decide)
    (by rw [List.length_singleton]; decide)
  simp only [ne_eq, not_true_eq_false, if_false, List.length_singleton] at e1
  have e2 := readEntries_layout _ payload
    [⟨ascii "res://a.bin", 0, size, List.replicate 16 0, 0⟩] 100 d1 hfit
    (by intro r hr; rw [List.mem_singleton] at hr; subst hr; rfl)
  have hL : ([(⟨ascii "res://a.bin", 0, size, List.replicate 16 0, 0⟩ : Record)].flatMap
      layoutRecord).length = 52 := by
    simp only [List.flatMap_cons, List.flatMap_nil, List.append_nil]
    rw [layoutRecord_length _ (show (List.replicate 16 (0 : Byte)).length = 16 by decide)]
    show 4 + (ascii "res://a.bin").length + padLen (ascii "res://a.bin").length + 8 + 8 + 16 + 4
      = 52
    decide
  have d2 := drop_add_of_drop _ _ _ 100 d1
  rw [hL] at d2
  have hp : trimNul (ascii "res://a.bin") = ascii "res://a.bin" := by decide
  simp only [List.map_cons, List.map_nil, hp, List.length_singleton] at e2
  have hlen : 152 + payload.length ≤ (bigPayloadArchive size payload).length := by
    have := congrArg List.length d1
    simp only [List.length_drop, List.length_append, hL] at this
    unfold bigPayloadArchive
    rw [List.length_append]
    omega
  have hs : seekTarget 152 ⟨ascii "res://a.bin", 0, size, List.replicate 16 0, false⟩
      = ((152 : Nat) : Int) := by
    have := seekTarget_of_lt 152 ⟨ascii "res://a.bin", 0, size, List.replicate 16 0, false⟩
      (show 152 + 0 < 2 ^ 63 by decide)
    simpa using this
  have hr := fileRead_capped (bigPayloadArchive size payload) 152 size (by omega) h1
  unfold bigPayloadArchive at hr
  rw [d2] at hr
  have hd : destPath (ascii "res://a.bin") = .ok (ascii "export/a.bin") := by decide
  have hmk : mkdirOps (ascii "export/a.bin") = [FsOp.mkdirAll (ascii "export")] := by decide
  have hsuf : (ascii ".ctex").isSuffixOf (ascii "export/a.bin") = false := by decide
  have hneg : ¬ ((152 : Nat) : Int) < 0 := by omega
  have hal : ¬ maxAlloc < size := by omega
  have hmain : main (bigPayloadArchive size payload)
      = extractLoop (bigPayloadArchive size payload) 152
          [⟨ascii "res://a.bin", 0, size, List.replicate 16 0, false⟩] := by
    unfold bigPayloadArchive
    simp only [main, parseArchive, e1, e2]
  rw [hmain]
  unfold bigPayloadArchive
  simp only [extractLoop, extractEntry, hs, hneg, hal, if_false, Int.toNat_ofNat, hr, hd, hmk,
    hsuf, Run.andThen, Run.done, List.append_nil, List.singleton_append, Bool.false_eq_true,
    and_self]

set_option maxRecDepth 1000000 in
/-- C5 (the code pads a long payload with zeros): the archive has one record
of size 2^30 + 1 at offset 0 with `filesBase` 152, followed by 2^30 + 1 bytes
`01`, so the payload range lies inside the file.  The one `Read` call delivers
2^30 bytes and `main` drops the count: it writes `export/a.bin` with 2^30
bytes `01` and a final zero byte, not the archive bytes, and completes. -/
theorem long_payload_zero_tail :
    152 + 0 + (2 ^ 30 + 1)
        ≤ (bigPayloadArchive (2 ^ 30 + 1) (List.replicate (2 ^ 30 + 1) 1)).length ∧
      (main (bigPayloadArchive (2 ^ 30 + 1) (List.replicate (2 ^ 30 + 1) 1))).ops
        = [FsOp.mkdirAll (ascii "export"),
           FsOp.writeFile (ascii "export/a.bin") (List.replicate (2 ^ 30) 1 ++ [0])] ∧
      (main (bigPayloadArchive (2 ^ 30 + 1) (List.replicate (2 ^ 30 + 1) 1))).err = none := by
  have hm := main_bigPayloadArchive (2 ^ 30 + 1) (List.replicate (2 ^ 30 + 1) 1)
    (by decide) (by decide) (by rw [List.length_replicate]; decide)
  have ht : (List.replicate (2 ^ 30 + 1) (1 : Byte)).take maxRW = List.replicate (2 ^ 30) 1 := by
    rw [List.take_replicate]
    have : min maxRW (2 ^ 30 + 1) = 2 ^ 30 := by decide
    rw [this]
  have hz : List.replicate (2 ^ 30 + 1 - maxRW) (0 : Byte) = [0] := by
    have : 2 ^ 30 + 1 - maxRW = 1 := by decide
    rw [this]
    rfl
  rw [ht, hz] at hm
  refine ⟨?_, hm.1, hm.2⟩
  have hdir : (layoutArchive 2 4 2 0 0 152 (List.replicate 16 0)
      [⟨ascii "res://a.bin", 0, 2 ^ 30 + 1, List.replicate 16 0, 0⟩]).length = 152 := by
    decide
  unfold bigPayloadArchive
  rw [List.length_append, List.length_replicate, hdir]
set_option maxRecDepth 1000000 in
/-- C7 (as stated, refuted): the scenario archive with `filesBase` 128 and its
copy with an all-zero stored digest differ only in the stored digest, parse to
the same header and to records equal up to the digest, and yet write different
files: the payload range 128..132 contains the first digest byte. -/
theorem digest_inside_payload_changes_output :
    parseArchive (scenarioArchive 128)
        = .ok (⟨2, 4, 2, 0, 0, 128, 1⟩,
               [⟨ascii "res://a.txt", 0, 5, md5Sum (ascii "hello"), false⟩]) ∧
      parseArchive (layoutArchive 2 4 2 0 0 128 (List.replicate 16 0)
          [⟨ascii "res://a.txt", 0, 5, List.replicate 16 0, 0⟩] ++ ascii "hello")
        = .ok (⟨2, 4, 2, 0, 0, 128, 1⟩,
               [⟨ascii "res://a.txt", 0, 5, List.replicate 16 0, false⟩]) ∧
      (main (scenarioArchive 128)).ops
        = [FsOp.mkdirAll (ascii "export"),
           FsOp.writeFile (ascii "export/a.txt") [0, 0, 0, 0, 0x5d]] ∧
      (main (layoutArchive 2 4 2 0 0 128 (List.replicate 16 0)
          [⟨ascii "res://a.txt", 0, 5, List.replicate 16 0, 0⟩] ++ ascii "hello")).ops
        = [FsOp.mkdirAll (ascii "export"),
           FsOp.writeFile (ascii "export/a.txt") [0, 0, 0, 0, 0]] ∧
      (main (scenarioArchive 128)).ops
        ≠ (main (layoutArchive 2 4 2 0 0 128 (List.replicate 16 0)
            [⟨ascii "res://a.txt", 0, 5, List.replicate 16 0, 0⟩] ++ ascii "hello")).ops := by
  decide

end GodotUnpacker
